import Mathlib

/-!
Shallow embedding of the descriptor-chain engine and the circular streaming
state machines of the esp-hal DMA driver (src/esp-hal/src/dma/mod.rs), together
with proofs settling the frozen claims C1..C10.

Modelling conventions:
* machine integers (`usize`, `u32`) are `Nat`; truncations of the bit-packed
  descriptor flag fields are explicit (`% 4096` for the 12-bit size/length
  fields, matching `bitfield!` masking after the `as u16` cast);
* raw pointers into the caller-owned descriptor array are indices (`Nat`),
  null pointers are `none : Option Nat`;
* a Rust panic (`unwrap` of `None`, slice index out of bounds, division by
  zero) and an out-of-range volatile memory access are both modelled as the
  `none` result of an `Option`-valued function; loops whose iteration count
  is not structurally bounded take an explicit fuel argument and return
  `none` on exhaustion.
-/

namespace EspHalDma

/-- Owner bit of a descriptor: 0 = CPU, 1 = DMA (bit 31 of the flags word). -/
inductive Owner where
  | Cpu
  | Dma
deriving DecidableEq, Repr

/-- The bit fields of the 32-bit `DmaDescriptorFlags` word:
bits 0-11 `size`, bits 12-23 `length`, bit 30 `suc_eof`, bit 31 `owner`.
The packing is a bijection between in-range field values and the word, so the
record of fields is used directly. -/
structure DmaDescriptorFlags where
  size : Nat
  length : Nat
  suc_eof : Bool
  owner : Bool
deriving DecidableEq, Repr

/-- `DmaDescriptor`: flags word, buffer address, next pointer
(`next = none` models a null pointer, `some i` the address of entry `i` of
the caller-owned descriptor array). -/
structure DmaDescriptor where
  flags : DmaDescriptorFlags
  buffer : Nat
  next : Option Nat
deriving DecidableEq, Repr

/-- `DmaDescriptor::EMPTY`: all-zero flags, null buffer and next. -/
def DmaDescriptor.EMPTY : DmaDescriptor :=
  { flags := { size := 0, length := 0, suc_eof := false, owner := false },
    buffer := 0, next := none }

/-- `DmaDescriptor::set_size`: the `as u16` cast followed by the 12-bit
bitfield mask truncates to `% 4096`. -/
def DmaDescriptor.set_size (d : DmaDescriptor) (len : Nat) : DmaDescriptor :=
  { d with flags := { d.flags with size := len % 4096 } }

/-- `DmaDescriptor::set_length` (12-bit field, truncating). -/
def DmaDescriptor.set_length (d : DmaDescriptor) (len : Nat) : DmaDescriptor :=
  { d with flags := { d.flags with length := len % 4096 } }

/-- `DmaDescriptor::len`: reads back the 12-bit `length` field. -/
def DmaDescriptor.len (d : DmaDescriptor) : Nat := d.flags.length

/-- `DmaDescriptor::set_suc_eof`. -/
def DmaDescriptor.set_suc_eof (d : DmaDescriptor) (b : Bool) : DmaDescriptor :=
  { d with flags := { d.flags with suc_eof := b } }

/-- `DmaDescriptor::set_owner`. -/
def DmaDescriptor.set_owner (d : DmaDescriptor) (o : Owner) : DmaDescriptor :=
  { d with flags := { d.flags with owner := o = Owner.Dma } }

/-- `DmaDescriptor::owner`. -/
def DmaDescriptor.owner (d : DmaDescriptor) : Owner :=
  if d.flags.owner then Owner.Dma else Owner.Cpu

/-- The `DmaError` enum (the subset of variants is complete; only the ones
reachable from the embedded code matter for the claims). -/
inductive DmaError where
  | InvalidAlignment
  | OutOfDescriptors
  | DescriptorError
  | Overflow
  | BufferTooSmall
  | UnsupportedMemoryRegion
  | InvalidChunkSize
deriving DecidableEq, Repr

instance {e a : Type} [DecidableEq e] [DecidableEq a] : DecidableEq (Except e a) :=
  fun x y =>
    match x, y with
    | .ok u, .ok v =>
      if h : u = v then isTrue (by rw [h]) else isFalse (by intro hh; cases hh; exact h rfl)
    | .ok _, .error _ => isFalse (fun h => Except.noConfusion h)
    | .error _, .ok _ => isFalse (fun h => Except.noConfusion h)
    | .error u, .error v =>
      if h : u = v then isTrue (by rw [h]) else isFalse (by intro hh; cases hh; exact h rfl)

/-- `usize::div_ceil` as implemented in the Rust core library:
quotient plus one when the remainder is nonzero (no `a + b - 1` overflow). -/
def divCeil (a b : Nat) : Nat := a / b + (if a % b = 0 then 0 else 1)

/-- Loop body of `DescriptorChain::fill_for_tx` (the `loop { .. }` at
src/esp-hal/src/dma/mod.rs:666-704).  State: `processed` bytes, current
descriptor index `descr`, descriptor array `ds`.  `m` is `max_chunk_size`.
Fuel is structural; `fill_for_tx` passes `ds.length + 1`, which is enough to
reach either the final fragment or the out-of-bounds panic (`none`). -/
def fillLoopTx (circular : Bool) (data len m : Nat) :
    Nat → Nat → Nat → List DmaDescriptor → Option (List DmaDescriptor)
  | 0, _, _, _ => none
  | fuel + 1, processed, descr, ds =>
    let chunk := min m (len - processed)
    let last := decide (len ≤ processed + chunk)
    -- addr_of_mut!(self.descriptors[i]) bounds-checks the index
    let nextOk : Option (Option Nat) :=
      if last = true then
        if circular then (if 0 < ds.length then some (some 0) else none)
        else some none
      else
        if descr + 1 < ds.length then some (some (descr + 1)) else none
    match nextOk with
    | none => none
    | some nxt =>
      if descr < ds.length then
        let d0 : DmaDescriptor :=
          { flags := { size := chunk % 4096, length := chunk % 4096,
                       suc_eof := circular || last, owner := true },
            buffer := data + processed,
            next := nxt }
        let ds1 := ds.set descr d0
        if last = true then some ds1
        else fillLoopTx circular data len m fuel (processed + chunk) (descr + 1) ds1
      else none

/-- Loop body of `DescriptorChain::fill_for_rx` (src/esp-hal/src/dma/mod.rs:
594-628).  Identical to the TX loop except that `suc_eof` is always false and
`length` is preset to 0 (hardware fills in the received count). -/
def fillLoopRx (circular : Bool) (data len m : Nat) :
    Nat → Nat → Nat → List DmaDescriptor → Option (List DmaDescriptor)
  | 0, _, _, _ => none
  | fuel + 1, processed, descr, ds =>
    let chunk := min m (len - processed)
    let last := decide (len ≤ processed + chunk)
    let nextOk : Option (Option Nat) :=
      if last = true then
        if circular then (if 0 < ds.length then some (some 0) else none)
        else some none
      else
        if descr + 1 < ds.length then some (some (descr + 1)) else none
    match nextOk with
    | none => none
    | some nxt =>
      if descr < ds.length then
        let d0 : DmaDescriptor :=
          { flags := { size := chunk % 4096, length := 0,
                       suc_eof := false, owner := true },
            buffer := data + processed,
            next := nxt }
        let ds1 := ds.set descr d0
        if last = true then some ds1
        else fillLoopRx circular data len m fuel (processed + chunk) (descr + 1) ds1
      else none

/-- Modelled from the spec: `crate::soc::is_valid_ram_address` is not among
the sources under review (only its call sites are).  The spec only requires
that descriptors and buffers lie in chip-specific DMA-reachable RAM, so the
check is abstracted as a caller-supplied predicate `valid` on addresses.
`firstA` is the address of the first element of the caller-owned descriptor
array; descriptors are 12 bytes each (spec section 6), so the last element
lives at `firstA + 12 * (n - 1)`. -/
def lastDescAddr (firstA n : Nat) : Nat := firstA + 12 * (n - 1)

/-- The `max_chunk_size` computation shared by both builders
(src/esp-hal/src/dma/mod.rs:586-590 and 658-662). -/
def maxChunk (circular : Bool) (chunk_size len : Nat) : Nat :=
  if !circular || chunk_size * 2 < len then chunk_size else len / 3 + len % 3

/-- `DescriptorChain::fill_for_tx` (src/esp-hal/src/dma/mod.rs:634-707).
Check order: memory regions (short-circuit: an invalid first-descriptor
address returns before `self.last()` can panic on an empty array), then
`circular && len <= 3` (`BufferTooSmall`), then the descriptor-count check
(`OutOfDescriptors`, whose `len.div_ceil(chunk_size)` divides by zero when
`chunk_size = 0`).  `none` models a panic. -/
def fill_for_tx (valid : Nat → Bool) (firstA chunk_size : Nat)
    (descs : List DmaDescriptor) (circular : Bool) (data len : Nat) :
    Option (Except DmaError (List DmaDescriptor)) :=
  if !(valid firstA) then some (.error .UnsupportedMemoryRegion)
  else if descs.length = 0 then none  -- self.last() unwraps None
  else if !(valid (lastDescAddr firstA descs.length)) || !(valid data)
          || !(valid (data + len)) then
    some (.error .UnsupportedMemoryRegion)
  else if circular && len ≤ 3 then some (.error .BufferTooSmall)
  else if chunk_size = 0 then none  -- len.div_ceil(0) panics
  else if descs.length < divCeil len chunk_size then
    some (.error .OutOfDescriptors)
  else
    let ds0 := List.replicate descs.length DmaDescriptor.EMPTY
    (fillLoopTx circular data len (maxChunk circular chunk_size len)
      (descs.length + 1) 0 0 ds0).map .ok

/-- `DescriptorChain::fill_for_rx` (src/esp-hal/src/dma/mod.rs:562-631).
Same as TX except the precondition order is swapped: `OutOfDescriptors` is
checked before `BufferTooSmall`, and the RX loop is used. -/
def fill_for_rx (valid : Nat → Bool) (firstA chunk_size : Nat)
    (descs : List DmaDescriptor) (circular : Bool) (data len : Nat) :
    Option (Except DmaError (List DmaDescriptor)) :=
  if !(valid firstA) then some (.error .UnsupportedMemoryRegion)
  else if descs.length = 0 then none  -- self.last() unwraps None
  else if !(valid (lastDescAddr firstA descs.length)) || !(valid data)
          || !(valid (data + len)) then
    some (.error .UnsupportedMemoryRegion)
  else if chunk_size = 0 then none  -- len.div_ceil(0) panics
  else if descs.length < divCeil len chunk_size then
    some (.error .OutOfDescriptors)
  else if circular && len ≤ 3 then some (.error .BufferTooSmall)
  else
    let ds0 := List.replicate descs.length DmaDescriptor.EMPTY
    (fillLoopRx circular data len (maxChunk circular chunk_size len)
      (descs.length + 1) 0 0 ds0).map .ok

/-- Number of descriptors a build actually wrote: the written ones carry the
DMA owner bit, the rest of the array was reset to `EMPTY` (owner bit clear). -/
def usedCount (ds : List DmaDescriptor) : Nat :=
  ds.countP fun d => d.flags.owner

/-! ## Fragment-level specification of the fill loops -/

/-- Number of iterations the fill loop performs for `len` bytes with maximum
fragment `m ≥ 1`: `ceil(len / m)` for `len ≥ 1`, and 1 for `len = 0`
(the `loop { .. }` always runs at least once). -/
def iterCount (m len : Nat) : Nat := (len - 1) / m + 1

/-- The descriptor the TX loop writes at index `i` (of `iterCount m len`
in total): every fragment is `m` bytes except the last, which absorbs the
remainder; `suc_eof` is set iff circular or last; the last links to the head
(circular) or to null. -/
def txFragment (circular : Bool) (data len m i : Nat) : DmaDescriptor :=
  let k := iterCount m len
  let chunk := if i + 1 = k then len - m * i else m
  { flags := { size := chunk % 4096, length := chunk % 4096,
               suc_eof := circular || decide (i + 1 = k), owner := true },
    buffer := data + m * i,
    next := if i + 1 = k then (if circular then some 0 else none)
            else some (i + 1) }

/-- The descriptor the RX loop writes at index `i`: like TX but with
`length = 0` and `suc_eof = false`. -/
def rxFragment (circular : Bool) (data len m i : Nat) : DmaDescriptor :=
  let k := iterCount m len
  let chunk := if i + 1 = k then len - m * i else m
  { flags := { size := chunk % 4096, length := 0,
               suc_eof := false, owner := true },
    buffer := data + m * i,
    next := if i + 1 = k then (if circular then some 0 else none)
            else some (i + 1) }

/-- TX fragments with indices `i, i+1, …, i+j-1`. -/
def txFrags (circular : Bool) (data len m : Nat) : Nat → Nat → List DmaDescriptor
  | _, 0 => []
  | i, j + 1 => txFragment circular data len m i :: txFrags circular data len m (i + 1) j

/-- RX fragments with indices `i, i+1, …, i+j-1`. -/
def rxFrags (circular : Bool) (data len m : Nat) : Nat → Nat → List DmaDescriptor
  | _, 0 => []
  | i, j + 1 => rxFragment circular data len m i :: rxFrags circular data len m (i + 1) j

/-- Overwrite `ds` starting at index `i` with the elements of `L` in order. -/
def setAll {α : Type} : List α → Nat → List α → List α
  | ds, _, [] => ds
  | ds, i, d :: rest => setAll (ds.set i d) (i + 1) rest

/-- Number of descriptors a successful build writes:
`iterCount` of the applicable `max_chunk_size`. -/
def fragCount (circular : Bool) (chunk_size len : Nat) : Nat :=
  iterCount (maxChunk circular chunk_size len) len

/-! ## Circular streaming state machines -/

/-- Modelled from the spec: the per-channel TX status capability used by
`TxCircularState::update` — the trait methods `descriptors_handled`,
`reset_descriptors_handled` and `last_out_dscr_address` are declared at
src/esp-hal/src/dma/mod.rs:1278-1282 but their register implementations are
chip code outside the reviewed sources.  Per the spec, `descriptors_handled`
is the TX EOF interrupt latch (cleared by reset, and staying clear absent
hardware progress) and `last_out_dscr_address` is the hardware's
last-completed outbound descriptor address (an index here). -/
structure TxChannelState where
  descriptors_handled : Bool
  last_out_dscr_address : Nat
deriving DecidableEq, Repr

/-- `TxCircularState` (src/esp-hal/src/dma/mod.rs:710-719).  The descriptor
pointers are indices into the descriptor array; `buffer_start` is the base
address of the ring buffer, which is modelled separately as a byte list. -/
structure TxCircularState where
  write_offset : Nat
  write_descr_ptr : Nat
  available : Nat
  last_seen_handled_descriptor_ptr : Nat
  buffer_start : Nat
  buffer_len : Nat
  first_desc_ptr : Nat
deriving DecidableEq, Repr

/-- The linear part of the `TxCircularState::update` reconciliation:
`while ptr < descr_address { available += (*ptr).len; ptr += 1 }`, expressed
with the iteration count `target - ptr` made explicit.  An out-of-array read
(undefined behaviour in the source) is `none`. -/
def sumLenGo (descs : List DmaDescriptor) : Nat → Nat → Option Nat
  | 0, _ => some 0
  | c + 1, ptr =>
    match descs.get? ptr with
    | none => none
    | some d =>
      match sumLenGo descs c (ptr + 1) with
      | none => none
      | some r => some (d.len + r)

/-- Sum of descriptor `length` fields over the index range `[ptr, target)`. -/
def sumLenRange (descs : List DmaDescriptor) (ptr target : Nat) : Option Nat :=
  sumLenGo descs (target - ptr) ptr

/-- The wrapped-case walk of `TxCircularState::update`
(src/esp-hal/src/dma/mod.rs:753-758): advance linearly, summing lengths,
until reaching a descriptor whose `next` is null or the ring head; that stop
descriptor is not included in the sum (the caller adds it). -/
def txWrapWalk (descs : List DmaDescriptor) (first : Nat) :
    Nat → Nat → Option (Nat × Nat)
  | 0, _ => none
  | fuel + 1, ptr =>
    match descs.get? ptr with
    | none => none
    | some d =>
      if d.next = none || d.next = some first then some (0, ptr)
      else
        match txWrapWalk descs first fuel (ptr + 1) with
        | none => none
        | some (t, p) => some (d.len + t, p)

/-- `TxCircularState::update` (src/esp-hal/src/dma/mod.rs:735-794): runs only
if the EOF latch is set; clears the latch, reconciles `available` against the
hardware's last-completed descriptor, performs the overrun-recovery step when
`available ≥ buffer_len`, and records the new last-seen pointer.
`usize` subtraction is truncating here (the in-range states the claims
quantify over never underflow); `% buffer_len` with `buffer_len = 0` is a
Rust panic (`none`). -/
def txUpdate (descs : List DmaDescriptor) (fuel : Nat)
    (s : TxCircularState) (ch : TxChannelState) :
    Option (TxCircularState × TxChannelState) :=
  if ch.descriptors_handled then
    let ch1 : TxChannelState := { ch with descriptors_handled := false }
    let descr_address := ch.last_out_dscr_address
    let availOpt : Option Nat :=
      if s.last_seen_handled_descriptor_ptr ≤ descr_address then
        match sumLenRange descs s.last_seen_handled_descriptor_ptr descr_address with
        | none => none
        | some t => some (s.available + t)
      else
        match txWrapWalk descs s.first_desc_ptr fuel
                s.last_seen_handled_descriptor_ptr with
        | none => none
        | some (t, p) =>
          match descs.get? p with
          | none => none
          | some dlast =>
            let base := s.available + t + dlast.len
            if dlast.next = some s.first_desc_ptr then
              match sumLenRange descs s.first_desc_ptr descr_address with
              | none => none
              | some t2 => some (base + t2)
            else some base
    match availOpt with
    | none => none
    | some avail1 =>
      if s.buffer_len ≤ avail1 then
        match descs.get? s.write_descr_ptr with
        | none => none
        | some dw0 =>
          if s.buffer_len = 0 then none
          else
            let wdp1 := match dw0.next with
                        | none => s.first_desc_ptr
                        | some p => p
            let s1 : TxCircularState :=
              { s with
                  available := avail1 - dw0.len,
                  write_offset := (s.write_offset + dw0.len) % s.buffer_len,
                  write_descr_ptr := wdp1,
                  last_seen_handled_descriptor_ptr := descr_address }
            some (s1, ch1)
      else
        let s1 : TxCircularState :=
          { s with
              available := avail1,
              last_seen_handled_descriptor_ptr := descr_address }
        some (s1, ch1)
  else some (s, ch)

/-- Byte copy into the ring buffer: `buffer[..len].copy_from_slice(..)`
starting at offset `o`. -/
def listCopy (buf : List Nat) (o : Nat) (src : List Nat) : List Nat :=
  buf.take o ++ src ++ buf.drop (o + src.length)

/-- The descriptor walk at the end of `TxCircularState::push_with`
(src/esp-hal/src/dma/mod.rs:829-846): always advances at least one
descriptor; a null `next` wraps to the ring head. -/
def pushAdvance (descs : List DmaDescriptor) (first : Nat) :
    Nat → Nat → Nat → Option Nat
  | 0, _, _ => none
  | fuel + 1, ptr, forward =>
    match descs.get? ptr with
    | none => none
    | some dw0 =>
      let ptr1 := match dw0.next with | none => first | some p => p
      if forward ≤ dw0.len then some ptr1
      else pushAdvance descs first fuel ptr1 (forward - dw0.len)

/-- One `push_with` call as made by `TxCircularState::push`
(src/esp-hal/src/dma/mod.rs:806-810, 818-852), with the copying closure
inlined: the closure receives the contiguous ring slice of length
`min(available, buffer_len - write_offset)` and writes
`min(slice.len(), data.len() - offset)` bytes from `data[offset..]`. -/
def push_with_step (descs : List DmaDescriptor) (wfuel : Nat)
    (s : TxCircularState) (buf : List Nat) (data : List Nat) (offset : Nat) :
    Option (Nat × TxCircularState × List Nat) :=
  let block := min s.available (s.buffer_len - s.write_offset)
  let written := min block (data.length - offset)
  let buf1 := listCopy buf s.write_offset ((data.drop offset).take written)
  match pushAdvance descs s.first_desc_ptr wfuel s.write_descr_ptr written with
  | none => none
  | some ptr1 =>
    if s.buffer_len = 0 then none
    else
      let s1 : TxCircularState :=
        { s with
            write_offset := (s.write_offset + written) % s.buffer_len,
            write_descr_ptr := ptr1,
            available := s.available - written }
      some (written, s1, buf1)

/-- The `while self.available >= remaining && remaining > 0` loop of
`TxCircularState::push` (src/esp-hal/src/dma/mod.rs:803-813). -/
def pushLoop (descs : List DmaDescriptor) (data : List Nat) (wfuel : Nat) :
    Nat → Nat → Nat → TxCircularState → List Nat →
    Option (TxCircularState × List Nat)
  | 0, _, _, _, _ => none
  | fuel + 1, remaining, offset, s, buf =>
    if remaining ≤ s.available ∧ 0 < remaining then
      match push_with_step descs wfuel s buf data offset with
      | none => none
      | some (written, s1, buf1) =>
        pushLoop descs data wfuel fuel (remaining - written) (offset + written) s1 buf1
    else some (s, buf)

/-- `TxCircularState::push` (src/esp-hal/src/dma/mod.rs:796-816): `Overflow`
when more bytes are offered than `available`, otherwise the copy loop runs
and the input length is returned. -/
def TxCircularState.push (descs : List DmaDescriptor) (fuel wfuel : Nat)
    (s : TxCircularState) (buf : List Nat) (data : List Nat) :
    Option (Except DmaError Nat × TxCircularState × List Nat) :=
  let avail := s.available
  if avail < data.length then some (.error .Overflow, s, buf)
  else
    match pushLoop descs data wfuel fuel data.length 0 s buf with
    | none => none
    | some (s1, buf1) => some (.ok data.length, s1, buf1)

/-- Sanity of a built descriptor ring as `push` relies on it: every
descriptor holds at least one byte and links inside the array (or to null,
which `push_with` treats as a wrap to the head). -/
def ringOkB (descs : List DmaDescriptor) : Bool :=
  descs.all fun d =>
    decide (1 ≤ d.len) &&
      (match d.next with | none => true | some j => decide (j < descs.length))

/-- `RxCircularState` (src/esp-hal/src/dma/mod.rs:855-860).  The null
`last_seen_handled_descriptor_ptr` sentinel of `new` is `none`. -/
structure RxCircularState where
  read_descr_ptr : Option Nat
  available : Nat
  last_seen_handled_descriptor_ptr : Option Nat
  last_descr_ptr : Nat
deriving DecidableEq, Repr

/-- The ownership walk of `RxCircularState::update`
(src/esp-hal/src/dma/mod.rs:879-890): starting from `last_seen`, follow
`next` and accumulate `length` while the descriptor is CPU-owned; stop at
the first DMA-owned descriptor, returning the new `available` and the new
`last_seen`.  A null `next` dereference is `none`. -/
def rxWalk (descs : List DmaDescriptor) : Nat → Nat → Nat → Option (Nat × Nat)
  | 0, _, _ => none
  | fuel + 1, avail, ls =>
    match descs.get? ls with
    | none => none
    | some d =>
      match d.next with
      | none => none
      | some nxt =>
        match descs.get? nxt with
        | none => none
        | some cur =>
          if cur.owner = Owner.Cpu then rxWalk descs fuel (avail + cur.len) nxt
          else some (avail, ls)

/-- The index the RX walk starts from: the `last_seen` pointer, with the
null sentinel seeded to the ring tail (`update` lines 873-877). -/
def startPtr (s : RxCircularState) : Nat :=
  match s.last_seen_handled_descriptor_ptr with
  | none => s.last_descr_ptr
  | some p => p

/-- `RxCircularState::update` (src/esp-hal/src/dma/mod.rs:872-891): seed the
null sentinel to the ring tail, then run the ownership walk. -/
def RxCircularState.update (descs : List DmaDescriptor) (fuel : Nat)
    (s : RxCircularState) : Option RxCircularState :=
  match rxWalk descs fuel s.available (startPtr s) with
  | none => none
  | some (a1, ls1) =>
    some { s with available := a1, last_seen_handled_descriptor_ptr := some ls1 }

/-- Exactly `n` steps of the RX ownership walk (for reasoning about the
non-terminating case): `none` if the walk would stop or fault earlier. -/
def rxWalkSteps (descs : List DmaDescriptor) : Nat → Nat → Nat → Option (Nat × Nat)
  | 0, avail, ls => some (avail, ls)
  | n + 1, avail, ls =>
    match descs.get? ls with
    | none => none
    | some d =>
      match d.next with
      | none => none
      | some nxt =>
        match descs.get? nxt with
        | none => none
        | some cur =>
          if cur.owner = Owner.Cpu then rxWalkSteps descs n (avail + cur.len) nxt
          else none

/-- Every descriptor links onward inside the array (a circular chain). -/
def nextInRangeB (descs : List DmaDescriptor) : Bool :=
  descs.all fun d =>
    match d.next with | none => false | some j => decide (j < descs.length)

/-- The descriptor reset done by `RxCircularState::pop` on each drained
descriptor: `owner = DMA`, `suc_eof = false`, `length = 0`; `size`, `buffer`
and `next` are untouched. -/
def resetDescFlags (d : DmaDescriptor) : DmaDescriptor :=
  { d with flags := { d.flags with owner := true, suc_eof := false, length := 0 } }

/-- The `length` field of the descriptor at index `i` (0 when out of range). -/
def lenAt (descs : List DmaDescriptor) (i : Nat) : Nat :=
  match descs.get? i with
  | none => 0
  | some d => d.len

/-- How many whole descriptors the pop loop drains, mirrored on the list of
descriptor lengths along the chain: a descriptor is drained only while
`available` is positive, output space remains, and the whole descriptor
fits. -/
def drainCount : List Nat → Nat → Nat → Nat
  | [], _, _ => 0
  | c :: cs, avail, rem =>
    if 0 < avail ∧ 0 < rem ∧ c ≤ rem then 1 + drainCount cs (avail - c) (rem - c)
    else 0

/-- The bytes `pop` copies out of one descriptor: its buffer contents, read
through the abstract byte memory `mem`. -/
def descBytes (mem : Nat → Nat) (descs : List DmaDescriptor) (q : Nat) : List Nat :=
  match descs.get? q with
  | none => []
  | some d => (List.range d.len).map fun j => mem (d.buffer + j)

/-- Reset the descriptors at the given indices (in walk order). -/
def resetAt (descs : List DmaDescriptor) (is : List Nat) : List DmaDescriptor :=
  is.foldl
    (fun ds q =>
      match ds.get? q with
      | none => ds
      | some d => ds.set q (resetDescFlags d))
    descs

/-- After the last chain element, `next` must be null or point inside the
array, or the final read of the loop faults. -/
def endNextOkB (descs : List DmaDescriptor) (i : Nat) : Bool :=
  match descs.get? i with
  | none => false
  | some d =>
    match d.next with
    | none => true
    | some q => decide (q < descs.length)

/-- Number of descriptors `pop` drains along the chain `is` when the state
is consistent (`available` equals the sum of the chain lengths). -/
def drainN (descs : List DmaDescriptor) (is : List Nat) (rem : Nat) : Nat :=
  drainCount (is.map (lenAt descs)) ((is.map (lenAt descs)).sum) rem

/-- Total bytes `pop` copies: the lengths of the drained whole descriptors. -/
def drainedBytesLen (descs : List DmaDescriptor) (is : List Nat) (rem : Nat) : Nat :=
  ((is.map (lenAt descs)).take (drainN descs is rem)).sum

/-- The drain loop of `RxCircularState::pop` (src/esp-hal/src/dma/mod.rs:
910-932).  State: `available`, finished output prefix `acc`, remaining
output slice, descriptor array, current pointer and the descriptor value
read from it.  Each iteration copies one whole descriptor, resets it in
place, and follows `next` (null breaks). -/
def popLoop (mem : Nat → Nat) :
    Nat → Nat → List Nat → List Nat → List DmaDescriptor → Nat → DmaDescriptor →
    Option (Nat × List Nat × List Nat × List DmaDescriptor × Option Nat)
  | 0, _, _, _, _, _, _ => none
  | fuel + 1, avail, acc, remaining, descs, ptr, descr =>
    if 0 < avail ∧ remaining ≠ [] ∧ descr.len ≤ remaining.length then
      let count := descr.len
      let copied := (List.range count).map fun j => mem (descr.buffer + j)
      let acc1 := acc ++ copied
      let rem1 := remaining.drop count
      let descs1 := descs.set ptr (resetDescFlags descr)
      let avail1 := avail - count
      match descr.next with
      | none => some (avail1, acc1, rem1, descs1, none)
      | some p1 =>
        match descs1.get? p1 with
        | none => none
        | some d1 => popLoop mem fuel avail1 acc1 rem1 descs1 p1 d1
    else some (avail, acc, remaining, descs, some ptr)

/-- `RxCircularState::pop` (src/esp-hal/src/dma/mod.rs:893-937):
`BufferTooSmall` when `available` exceeds the output capacity; a null read
pointer returns `Ok(0)`; otherwise the drain loop runs and the number of
bytes written to the output is returned. -/
def RxCircularState.pop (mem : Nat → Nat) (descs : List DmaDescriptor)
    (fuel : Nat) (s : RxCircularState) (out : List Nat) :
    Option (Except DmaError Nat × RxCircularState × List DmaDescriptor × List Nat) :=
  let len := out.length
  let avail := s.available
  if len < avail then some (.error .BufferTooSmall, s, descs, out)
  else
    match s.read_descr_ptr with
    | none => some (.ok 0, s, descs, out)
    | some p0 =>
      match descs.get? p0 with
      | none => none
      | some d0 =>
        match popLoop mem fuel avail [] out descs p0 d0 with
        | none => none
        | some (a1, acc, rem, descs1, ptr1) =>
          some (.ok (len - rem.length),
            { s with read_descr_ptr := ptr1, available := a1 }, descs1, acc ++ rem)


theorem setAll_cons {α : Type} (d : α) (ds : List α) (i : Nat) (L : List α) :
    setAll (d :: ds) (i + 1) L = d :: setAll ds i L := by
  induction L generalizing d ds i with
  | nil => rfl
  | cons a L ih =>
    show setAll ((d :: ds).set (i + 1) a) (i + 2) L = d :: setAll (ds.set i a) (i + 1) L
    simp only [List.set]
    exact ih d (ds.set i a) (i + 1)

theorem setAll_replicate {α : Type} (e : α) :
    ∀ (L : List α) (n : Nat), L.length ≤ n →
      setAll (List.replicate n e) 0 L = L ++ List.replicate (n - L.length) e := by
  intro L
  induction L with
  | nil => intro n _; rfl
  | cons a L ih =>
    intro n hn
    match n, hn with
    | n + 1, hn =>
      show setAll ((List.replicate (n + 1) e).set 0 a) 1 L = _
      rw [List.replicate_succ, List.set_cons_zero, setAll_cons, ih n (by simpa using hn)]
      simp [List.length_cons, Nat.succ_sub_succ]

theorem txFrags_length (c : Bool) (data len m : Nat) :
    ∀ j i, (txFrags c data len m i j).length = j := by
  intro j
  induction j with
  | zero => intro i; rfl
  | succ j ih => intro i; simp [txFrags, ih]

theorem rxFrags_length (c : Bool) (data len m : Nat) :
    ∀ j i, (rxFrags c data len m i j).length = j := by
  intro j
  induction j with
  | zero => intro i; rfl
  | succ j ih => intro i; simp [rxFrags, ih]

theorem txFrags_get (c : Bool) (data len m : Nat) :
    ∀ j i t, t < j →
      (txFrags c data len m i j).get? t = some (txFragment c data len m (i + t)) := by
  intro j
  induction j with
  | zero => intro i t ht; omega
  | succ j ih =>
    intro i t ht
    cases t with
    | zero => simp [txFrags]
    | succ t =>
      have := ih (i + 1) t (by omega)
      simpa [txFrags, Nat.add_assoc, Nat.add_comm 1 t] using this

theorem rxFrags_get (c : Bool) (data len m : Nat) :
    ∀ j i t, t < j →
      (rxFrags c data len m i j).get? t = some (rxFragment c data len m (i + t)) := by
  intro j
  induction j with
  | zero => intro i t ht; omega
  | succ j ih =>
    intro i t ht
    cases t with
    | zero => simp [rxFrags]
    | succ t =>
      have := ih (i + 1) t (by omega)
      simpa [rxFrags, Nat.add_assoc, Nat.add_comm 1 t] using this

/-- The loop's `last` flag at iteration `i` fires exactly on the final
iteration `i = iterCount m len - 1`. -/
theorem last_iff (m len i : Nat) (hm : 1 ≤ m) (hi : i < iterCount m len) :
    len - m * i ≤ m ↔ i + 1 = iterCount m len := by
  have key : (len - 1) / m < i + 1 ↔ len - 1 < (i + 1) * m := Nat.div_lt_iff_lt_mul hm
  have hmul : (i + 1) * m = m * i + m := by ring
  rw [hmul] at key
  unfold iterCount at hi ⊢
  omega

/-- Master lemma for the TX fill loop: started at iteration `i` (with
`processed = m * i` bytes done) on an array long enough for all
`iterCount m len` fragments, the loop writes exactly the fragments
`i, …, iterCount m len - 1` in place. -/
theorem fillLoopTx_spec (circular : Bool) (data len m : Nat) (hm : 1 ≤ m) :
    ∀ (fuel i : Nat) (ds : List DmaDescriptor),
      i < iterCount m len →
      iterCount m len ≤ ds.length →
      iterCount m len - i ≤ fuel →
      fillLoopTx circular data len m fuel (m * i) i ds =
        some (setAll ds i (txFrags circular data len m i (iterCount m len - i))) := by
  intro fuel
  induction fuel with
  | zero => intro i ds hi hkds hf; omega
  | succ fuel ih =>
    intro i ds hi hkds hf
    by_cases hlast : len - m * i ≤ m
    · have hk1 : i + 1 = iterCount m len := (last_iff m len i hm hi).mp hlast
      have hchunk : min m (len - m * i) = len - m * i := Nat.min_eq_right hlast
      have hlb : len ≤ m * i + (len - m * i) := by omega
      have hkpos : 0 < ds.length := by omega
      have hilt : i < ds.length := by omega
      have hki : iterCount m len - i = 1 := by omega
      have hfrag : txFragment circular data len m i =
          { flags := { size := (len - m * i) % 4096, length := (len - m * i) % 4096,
                       suc_eof := circular || true, owner := true },
            buffer := data + m * i,
            next := if circular = true then some 0 else none } := by
        simp [txFragment, ← hk1]
      rw [hki]
      simp only [fillLoopTx, hchunk, txFrags, setAll]
      rw [decide_eq_true hlb]
      cases circular with
      | false => simp [hfrag, hilt]
      | true => simp [hfrag, hilt, hkpos]
    · have hne : ¬(i + 1 = iterCount m len) := fun h =>
        hlast ((last_iff m len i hm hi).mpr h)
      have hk1 : i + 1 < iterCount m len := by omega
      have hmlt : m < len - m * i := by omega
      have hchunk : min m (len - m * i) = m := Nat.min_eq_left (Nat.le_of_lt hmlt)
      have hnl : ¬(len ≤ m * i + m) := by omega
      have hilt : i < ds.length := by omega
      have hi1lt : i + 1 < ds.length := by omega
      have hfrag : txFragment circular data len m i =
          { flags := { size := m % 4096, length := m % 4096,
                       suc_eof := circular || false, owner := true },
            buffer := data + m * i,
            next := some (i + 1) } := by
        simp [txFragment, hne]
      have hrec := ih (i + 1)
        ((ds.set i (txFragment circular data len m i)))
        hk1 (by simpa using hkds) (by omega)
      rw [Nat.mul_succ] at hrec
      have hsplit : iterCount m len - i = (iterCount m len - (i + 1)) + 1 := by omega
      rw [hsplit]
      simp only [fillLoopTx, hchunk, txFrags, setAll]
      rw [decide_eq_false hnl]
      simp only [Bool.false_eq_true, if_false, if_pos hi1lt, if_pos hilt]
      rw [← hfrag]
      exact hrec

/-- When the descriptor array is shorter than the required fragment count the
fill loop hits an out-of-bounds index (a Rust panic, `none`) instead of
completing. -/
theorem fillLoopTx_panic (circular : Bool) (data len m : Nat) (hm : 1 ≤ m) :
    ∀ (fuel i : Nat) (ds : List DmaDescriptor),
      ds.length < iterCount m len →
      i ≤ ds.length →
      ds.length + 1 - i ≤ fuel →
      fillLoopTx circular data len m fuel (m * i) i ds = none := by
  intro fuel
  induction fuel with
  | zero => intro i ds hn hi hf; omega
  | succ fuel ih =>
    intro i ds hn hi hf
    have hik : i < iterCount m len := by omega
    rcases Nat.lt_or_ge i ds.length with hilt | hige
    · -- still in range: this cannot be the last iteration, since even the
      -- array end is before the final fragment
      have hne : ¬(i + 1 = iterCount m len) := by omega
      have hnlast : ¬(len - m * i ≤ m) := fun h =>
        hne ((last_iff m len i hm hik).mp h)
      have hmlt : m < len - m * i := by omega
      have hchunk : min m (len - m * i) = m := Nat.min_eq_left (Nat.le_of_lt hmlt)
      have hnl : ¬(len ≤ m * i + m) := by omega
      simp only [fillLoopTx, hchunk]
      rw [decide_eq_false hnl]
      simp only [Bool.false_eq_true, if_false]
      rcases Nat.lt_or_ge (i + 1) ds.length with h1 | h1
      · simp only [if_pos h1, if_pos hilt]
        have hrec := ih (i + 1) (ds.set i
          { flags := { size := m % 4096, length := m % 4096,
                       suc_eof := circular || false, owner := true },
            buffer := data + m * i, next := some (i + 1) })
          (by simpa using hn) (by simp; omega) (by simp; omega)
        rw [Nat.mul_succ] at hrec
        exact hrec
      · simp [Nat.not_lt_of_ge h1]
    · -- i = ds.length: every branch fails the bounds check
      have hieq : i = ds.length := by omega
      simp only [fillLoopTx]
      have hnotlt : ¬(i < ds.length) := by omega
      have hnotlt1 : ¬(i + 1 < ds.length) := by omega
      by_cases hlast : len ≤ m * i + min m (len - m * i)
      · rw [decide_eq_true hlast]
        cases circular with
        | false => simp [hnotlt]
        | true =>
          by_cases hdp : 0 < ds.length
          · simp [hdp, hnotlt]
          · simp [hdp]
      · rw [decide_eq_false hlast]
        simp [hnotlt1]

/-- Master lemma for the RX fill loop (mirror of `fillLoopTx_spec`). -/
theorem fillLoopRx_spec (circular : Bool) (data len m : Nat) (hm : 1 ≤ m) :
    ∀ (fuel i : Nat) (ds : List DmaDescriptor),
      i < iterCount m len →
      iterCount m len ≤ ds.length →
      iterCount m len - i ≤ fuel →
      fillLoopRx circular data len m fuel (m * i) i ds =
        some (setAll ds i (rxFrags circular data len m i (iterCount m len - i))) := by
  intro fuel
  induction fuel with
  | zero => intro i ds hi hkds hf; omega
  | succ fuel ih =>
    intro i ds hi hkds hf
    by_cases hlast : len - m * i ≤ m
    · have hk1 : i + 1 = iterCount m len := (last_iff m len i hm hi).mp hlast
      have hchunk : min m (len - m * i) = len - m * i := Nat.min_eq_right hlast
      have hlb : len ≤ m * i + (len - m * i) := by omega
      have hkpos : 0 < ds.length := by omega
      have hilt : i < ds.length := by omega
      have hki : iterCount m len - i = 1 := by omega
      have hfrag : rxFragment circular data len m i =
          { flags := { size := (len - m * i) % 4096, length := 0,
                       suc_eof := false, owner := true },
            buffer := data + m * i,
            next := if circular = true then some 0 else none } := by
        simp [rxFragment, ← hk1]
      rw [hki]
      simp only [fillLoopRx, hchunk, rxFrags, setAll]
      rw [decide_eq_true hlb]
      cases circular with
      | false => simp [hfrag, hilt]
      | true => simp [hfrag, hilt, hkpos]
    · have hne : ¬(i + 1 = iterCount m len) := fun h =>
        hlast ((last_iff m len i hm hi).mpr h)
      have hk1 : i + 1 < iterCount m len := by omega
      have hmlt : m < len - m * i := by omega
      have hchunk : min m (len - m * i) = m := Nat.min_eq_left (Nat.le_of_lt hmlt)
      have hnl : ¬(len ≤ m * i + m) := by omega
      have hilt : i < ds.length := by omega
      have hi1lt : i + 1 < ds.length := by omega
      have hfrag : rxFragment circular data len m i =
          { flags := { size := m % 4096, length := 0,
                       suc_eof := false, owner := true },
            buffer := data + m * i,
            next := some (i + 1) } := by
        simp [rxFragment, hne]
      have hrec := ih (i + 1)
        ((ds.set i (rxFragment circular data len m i)))
        hk1 (by simpa using hkds) (by omega)
      rw [Nat.mul_succ] at hrec
      have hsplit : iterCount m len - i = (iterCount m len - (i + 1)) + 1 := by omega
      rw [hsplit]
      simp only [fillLoopRx, hchunk, rxFrags, setAll]
      rw [decide_eq_false hnl]
      simp only [Bool.false_eq_true, if_false, if_pos hi1lt, if_pos hilt]
      rw [← hfrag]
      exact hrec

/-- Mirror of `fillLoopTx_panic` for the RX loop. -/
theorem fillLoopRx_panic (circular : Bool) (data len m : Nat) (hm : 1 ≤ m) :
    ∀ (fuel i : Nat) (ds : List DmaDescriptor),
      ds.length < iterCount m len →
      i ≤ ds.length →
      ds.length + 1 - i ≤ fuel →
      fillLoopRx circular data len m fuel (m * i) i ds = none := by
  intro fuel
  induction fuel with
  | zero => intro i ds hn hi hf; omega
  | succ fuel ih =>
    intro i ds hn hi hf
    have hik : i < iterCount m len := by omega
    rcases Nat.lt_or_ge i ds.length with hilt | hige
    · have hne : ¬(i + 1 = iterCount m len) := by omega
      have hnlast : ¬(len - m * i ≤ m) := fun h =>
        hne ((last_iff m len i hm hik).mp h)
      have hmlt : m < len - m * i := by omega
      have hchunk : min m (len - m * i) = m := Nat.min_eq_left (Nat.le_of_lt hmlt)
      have hnl : ¬(len ≤ m * i + m) := by omega
      simp only [fillLoopRx, hchunk]
      rw [decide_eq_false hnl]
      simp only [Bool.false_eq_true, if_false]
      rcases Nat.lt_or_ge (i + 1) ds.length with h1 | h1
      · simp only [if_pos h1, if_pos hilt]
        have hrec := ih (i + 1) (ds.set i
          { flags := { size := m % 4096, length := 0,
                       suc_eof := false, owner := true },
            buffer := data + m * i, next := some (i + 1) })
          (by simpa using hn) (by simp; omega) (by simp; omega)
        rw [Nat.mul_succ] at hrec
        exact hrec
      · simp [Nat.not_lt_of_ge h1]
    · have hieq : i = ds.length := by omega
      simp only [fillLoopRx]
      have hnotlt : ¬(i < ds.length) := by omega
      have hnotlt1 : ¬(i + 1 < ds.length) := by omega
      by_cases hlast : len ≤ m * i + min m (len - m * i)
      · rw [decide_eq_true hlast]
        cases circular with
        | false => simp [hnotlt]
        | true =>
          by_cases hdp : 0 < ds.length
          · simp [hdp, hnotlt]
          · simp [hdp]
      · rw [decide_eq_false hlast]
        simp [hnotlt1]

/-- `iterCount` is at least 1 (the fill loop always runs once). -/
theorem iterCount_pos (m len : Nat) : 0 < iterCount m len := Nat.succ_pos _

/-- Characterization of every successful TX build: the checks passed, the
array is long enough, and the result is the fragment list padded with
`EMPTY`. -/
theorem fill_for_tx_ok (valid : Nat → Bool) (firstA chunk_size : Nat)
    (descs : List DmaDescriptor) (circular : Bool) (data len : Nat)
    (L : List DmaDescriptor) (hc : 1 ≤ chunk_size)
    (hL : fill_for_tx valid firstA chunk_size descs circular data len =
            some (.ok L)) :
    1 ≤ maxChunk circular chunk_size len ∧
    (circular = true → 4 ≤ len) ∧
    iterCount (maxChunk circular chunk_size len) len ≤ descs.length ∧
    L = txFrags circular data len (maxChunk circular chunk_size len) 0
          (iterCount (maxChunk circular chunk_size len) len) ++
        List.replicate
          (descs.length - iterCount (maxChunk circular chunk_size len) len)
          DmaDescriptor.EMPTY := by
  unfold fill_for_tx at hL
  split_ifs at hL with h1 h2 h3 h4 h5 h6
  · exact absurd hL (by simp)
  · exact absurd hL (by simp)
  · exact absurd hL (by simp)
  · exact absurd hL (by simp)
  · -- successful branch
    have hlen4 : circular = true → 4 ≤ len := by
      intro hcirc
      by_contra hlt
      exact h4 (by simp [hcirc]; omega)
    have hm1 : 1 ≤ maxChunk circular chunk_size len := by
      unfold maxChunk
      split
      · exact hc
      · rename_i hcond
        simp only [Bool.or_eq_true, Bool.not_eq_true', decide_eq_true_eq, not_or] at hcond
        obtain ⟨hcirc, _⟩ := hcond
        have h4l : 4 ≤ len := hlen4 (by revert hcirc; cases circular <;> simp)
        have : 1 ≤ len / 3 := (Nat.le_div_iff_mul_le (by omega)).mpr (by omega)
        omega
    simp only [Option.map_eq_some'] at hL
    obtain ⟨L0, hfill, hok⟩ := hL
    have hLL : L0 = L := by injection hok
    subst hLL
    have hkn : iterCount (maxChunk circular chunk_size len) len ≤ descs.length := by
      by_contra hgt
      have hp := fillLoopTx_panic circular data len (maxChunk circular chunk_size len)
        hm1 (descs.length + 1) 0 (List.replicate descs.length DmaDescriptor.EMPTY)
        (by first | (simp only [List.length_replicate]; omega) | omega)
        (by first | (simp only [List.length_replicate]; omega) | omega)
        (by first | (simp only [List.length_replicate]; omega) | omega)
      rw [Nat.mul_zero] at hp
      rw [hp] at hfill
      exact absurd hfill (by simp)
    have hs := fillLoopTx_spec circular data len (maxChunk circular chunk_size len)
      hm1 (descs.length + 1) 0 (List.replicate descs.length DmaDescriptor.EMPTY)
      (iterCount_pos _ _)
      (by first | (simp only [List.length_replicate]; omega) | omega)
      (by first | (simp only [List.length_replicate]; omega) | omega)
    rw [Nat.mul_zero, Nat.sub_zero] at hs
    rw [hs] at hfill
    have hLval := Option.some.inj hfill
    refine ⟨hm1, hlen4, hkn, ?_⟩
    rw [← hLval]
    rw [setAll_replicate DmaDescriptor.EMPTY _ _ (by rw [txFrags_length]; exact hkn)]
    rw [txFrags_length]

/-- Characterization of every successful RX build (mirror of
`fill_for_tx_ok`). -/
theorem fill_for_rx_ok (valid : Nat → Bool) (firstA chunk_size : Nat)
    (descs : List DmaDescriptor) (circular : Bool) (data len : Nat)
    (L : List DmaDescriptor) (hc : 1 ≤ chunk_size)
    (hL : fill_for_rx valid firstA chunk_size descs circular data len =
            some (.ok L)) :
    1 ≤ maxChunk circular chunk_size len ∧
    (circular = true → 4 ≤ len) ∧
    iterCount (maxChunk circular chunk_size len) len ≤ descs.length ∧
    L = rxFrags circular data len (maxChunk circular chunk_size len) 0
          (iterCount (maxChunk circular chunk_size len) len) ++
        List.replicate
          (descs.length - iterCount (maxChunk circular chunk_size len) len)
          DmaDescriptor.EMPTY := by
  unfold fill_for_rx at hL
  split_ifs at hL with h1 h2 h3 h4 h5 h6
  · exact absurd hL (by simp)
  · exact absurd hL (by simp)
  · exact absurd hL (by simp)
  · exact absurd hL (by simp)
  · have hlen4 : circular = true → 4 ≤ len := by
      intro hcirc
      by_contra hlt
      exact h6 (by simp [hcirc]; omega)
    have hm1 : 1 ≤ maxChunk circular chunk_size len := by
      unfold maxChunk
      split
      · exact hc
      · rename_i hcond
        simp only [Bool.or_eq_true, Bool.not_eq_true', decide_eq_true_eq, not_or] at hcond
        obtain ⟨hcirc, _⟩ := hcond
        have h4l : 4 ≤ len := hlen4 (by revert hcirc; cases circular <;> simp)
        have : 1 ≤ len / 3 := (Nat.le_div_iff_mul_le (by omega)).mpr (by omega)
        omega
    simp only [Option.map_eq_some'] at hL
    obtain ⟨L0, hfill, hok⟩ := hL
    have hLL : L0 = L := by injection hok
    subst hLL
    have hkn : iterCount (maxChunk circular chunk_size len) len ≤ descs.length := by
      by_contra hgt
      have hp := fillLoopRx_panic circular data len (maxChunk circular chunk_size len)
        hm1 (descs.length + 1) 0 (List.replicate descs.length DmaDescriptor.EMPTY)
        (by first | (simp only [List.length_replicate]; omega) | omega)
        (by first | (simp only [List.length_replicate]; omega) | omega)
        (by first | (simp only [List.length_replicate]; omega) | omega)
      rw [Nat.mul_zero] at hp
      rw [hp] at hfill
      exact absurd hfill (by simp)
    have hs := fillLoopRx_spec circular data len (maxChunk circular chunk_size len)
      hm1 (descs.length + 1) 0 (List.replicate descs.length DmaDescriptor.EMPTY)
      (iterCount_pos _ _)
      (by first | (simp only [List.length_replicate]; omega) | omega)
      (by first | (simp only [List.length_replicate]; omega) | omega)
    rw [Nat.mul_zero, Nat.sub_zero] at hs
    rw [hs] at hfill
    have hLval := Option.some.inj hfill
    refine ⟨hm1, hlen4, hkn, ?_⟩
    rw [← hLval]
    rw [setAll_replicate DmaDescriptor.EMPTY _ _ (by rw [rxFrags_length]; exact hkn)]
    rw [rxFrags_length]

/-- In a non-circular build the maximum fragment size is the chunk size. -/
theorem maxChunk_false (chunk_size len : Nat) :
    maxChunk false chunk_size len = chunk_size := by
  simp [maxChunk]

/-- In a circular build with `len ≤ 2 * chunk_size` the maximum fragment size
is `len / 3 + len % 3`. -/
theorem maxChunk_circ (chunk_size len : Nat) (h : len ≤ chunk_size * 2) :
    maxChunk true chunk_size len = len / 3 + len % 3 := by
  simp [maxChunk, Nat.not_lt.mpr h]

/-- For `len ≥ 1` the loop iteration count agrees with `len.div_ceil(chunk)`. -/
theorem iterCount_eq_divCeil (chunk len : Nat) (hc : 1 ≤ chunk) (hl : 1 ≤ len) :
    iterCount chunk len = divCeil len chunk := by
  obtain ⟨n, rfl⟩ : ∃ n, len = n + 1 := ⟨len - 1, by omega⟩
  unfold iterCount divCeil
  rw [Nat.succ_div]
  simp only [Nat.add_sub_cancel]
  by_cases h : (n + 1) % chunk = 0
  · have hdvd : chunk ∣ n + 1 := Nat.dvd_of_mod_eq_zero h
    simp [h, hdvd]
  · have hndvd : ¬ chunk ∣ n + 1 := fun hd => h (Nat.mod_eq_zero_of_dvd hd)
    simp [h, hndvd]

/-- Iteration-count bounds for circular small-length builds: the split into
fragments of at most `len / 3 + len % 3` bytes gives two or three fragments,
never more. -/
theorem circ_iterCount_bounds (len : Nat) (h4 : 4 ≤ len) :
    2 ≤ iterCount (len / 3 + len % 3) len ∧ iterCount (len / 3 + len % 3) len ≤ 3 := by
  have hmod := Nat.div_add_mod len 3
  have hlt : len % 3 < 3 := Nat.mod_lt _ (by omega)
  have hm1 : 1 ≤ len / 3 + len % 3 := by
    have : 1 ≤ len / 3 := (Nat.le_div_iff_mul_le (by omega)).mpr (by omega)
    omega
  constructor
  · unfold iterCount
    have : 1 ≤ (len - 1) / (len / 3 + len % 3) := by
      rw [Nat.le_div_iff_mul_le (by omega)]
      have : 1 ≤ len / 3 := (Nat.le_div_iff_mul_le (by omega)).mpr (by omega)
      omega
    omega
  · unfold iterCount
    have : (len - 1) / (len / 3 + len % 3) < 3 := by
      rw [Nat.div_lt_iff_lt_mul (by omega)]
      omega
    omega

/-- The circular small-length fragment bound stays within the 12-bit field:
`len ≤ 8184` gives `len / 3 + len % 3 ≤ 4092`. -/
theorem circ_m_le (len : Nat) (h : len ≤ 8184) : len / 3 + len % 3 ≤ 4092 := by
  have hmod := Nat.div_add_mod len 3
  have hlt : len % 3 < 3 := Nat.mod_lt _ (by omega)
  omega

/-- Element lookup in a replicated list. -/
theorem get_replicate {α : Type} (e : α) :
    ∀ (n j : Nat), j < n → (List.replicate n e).get? j = some e := by
  intro n
  induction n with
  | zero => intro j hj; omega
  | succ n ih =>
    intro j hj
    cases j with
    | zero => simp [List.replicate]
    | succ j => simpa [List.replicate] using ih j (by omega)

/-- Every TX fragment has the DMA owner bit set. -/
theorem txFrags_owner (c : Bool) (data len m : Nat) :
    ∀ j i d, d ∈ txFrags c data len m i j → d.flags.owner = true := by
  intro j
  induction j with
  | zero => intro i d hd; simp [txFrags] at hd
  | succ j ih =>
    intro i d hd
    simp only [txFrags, List.mem_cons] at hd
    rcases hd with hd | hd
    · subst hd; rfl
    · exact ih (i + 1) d hd

/-- Every RX fragment has the DMA owner bit set. -/
theorem rxFrags_owner (c : Bool) (data len m : Nat) :
    ∀ j i d, d ∈ rxFrags c data len m i j → d.flags.owner = true := by
  intro j
  induction j with
  | zero => intro i d hd; simp [rxFrags] at hd
  | succ j ih =>
    intro i d hd
    simp only [rxFrags, List.mem_cons] at hd
    rcases hd with hd | hd
    · subst hd; rfl
    · exact ih (i + 1) d hd

/-- Every RX fragment has a zero `length` field (hardware fills it in). -/
theorem rxFrags_len_zero (c : Bool) (data len m : Nat) :
    ∀ j i d, d ∈ rxFrags c data len m i j → d.flags.length = 0 := by
  intro j
  induction j with
  | zero => intro i d hd; simp [rxFrags] at hd
  | succ j ih =>
    intro i d hd
    simp only [rxFrags, List.mem_cons] at hd
    rcases hd with hd | hd
    · subst hd; rfl
    · exact ih (i + 1) d hd

/-- The number of used descriptors in a fill result: the fragments all carry
the owner bit; the `EMPTY` padding does not. -/
theorem usedCount_pad (L1 : List DmaDescriptor) (j : Nat)
    (hall : ∀ d ∈ L1, d.flags.owner = true) :
    usedCount (L1 ++ List.replicate j DmaDescriptor.EMPTY) = L1.length := by
  unfold usedCount
  rw [List.countP_append]
  have h1 : List.countP (fun d => d.flags.owner) L1 = L1.length :=
    List.countP_eq_length.mpr (by intro a ha; simpa using hall a ha)
  have h2 : List.countP (fun d => d.flags.owner) (List.replicate j DmaDescriptor.EMPTY) = 0 := by
    rw [List.countP_eq_zero]
    intro a ha
    rw [List.eq_of_mem_replicate ha]
    simp [DmaDescriptor.EMPTY]
  omega

/-- Sum of the `length` fields over the TX fragments starting at index `i`:
the fragments cover exactly the remaining `len - m * i` bytes. -/
theorem txFrags_sum_len (c : Bool) (data len m : Nat) (hm : 1 ≤ m) (hm4 : m ≤ 4092) :
    ∀ j i, i + j = iterCount m len → i < iterCount m len →
      ((txFrags c data len m i j).map DmaDescriptor.len).sum = len - m * i := by
  intro j
  induction j with
  | zero => intro i hij hi; omega
  | succ j ih =>
    intro i hij hi
    by_cases hk : i + 1 = iterCount m len
    · have hj0 : j = 0 := by omega
      subst hj0
      have hb : len - m * i ≤ m := (last_iff m len i hm hi).mpr hk
      simp only [txFrags, List.map_cons, List.map_nil, List.sum_cons, List.sum_nil]
      simp [txFragment, DmaDescriptor.len, hk, Nat.mod_eq_of_lt (by omega : len - m * i < 4096)]
    · have hik : i + 1 < iterCount m len := by omega
      have hlt : m < len - m * i := by
        have := (last_iff m len i hm hi).not.mpr hk
        omega
      have hrest := ih (i + 1) (by omega) hik
      simp only [txFrags, List.map_cons, List.sum_cons]
      rw [hrest]
      have hfrag : (txFragment c data len m i).len = m := by
        simp [txFragment, DmaDescriptor.len, hk, Nat.mod_eq_of_lt (by omega : m < 4096)]
      rw [hfrag]
      have hms : m * (i + 1) = m * i + m := Nat.mul_succ m i
      omega

/-- Sum of the `size` fields over the TX fragments (same values as `length`). -/
theorem txFrags_sum_size (c : Bool) (data len m : Nat) (hm : 1 ≤ m) (hm4 : m ≤ 4092) :
    ∀ j i, i + j = iterCount m len → i < iterCount m len →
      ((txFrags c data len m i j).map (fun d => d.flags.size)).sum = len - m * i := by
  intro j
  induction j with
  | zero => intro i hij hi; omega
  | succ j ih =>
    intro i hij hi
    by_cases hk : i + 1 = iterCount m len
    · have hj0 : j = 0 := by omega
      subst hj0
      have hb : len - m * i ≤ m := (last_iff m len i hm hi).mpr hk
      simp only [txFrags, List.map_cons, List.map_nil, List.sum_cons, List.sum_nil]
      simp [txFragment, hk, Nat.mod_eq_of_lt (by omega : len - m * i < 4096)]
    · have hik : i + 1 < iterCount m len := by omega
      have hlt : m < len - m * i := by
        have := (last_iff m len i hm hi).not.mpr hk
        omega
      have hrest := ih (i + 1) (by omega) hik
      simp only [txFrags, List.map_cons, List.sum_cons]
      rw [hrest]
      have hfrag : (txFragment c data len m i).flags.size = m := by
        simp [txFragment, hk, Nat.mod_eq_of_lt (by omega : m < 4096)]
      rw [hfrag]
      have hms : m * (i + 1) = m * i + m := Nat.mul_succ m i
      omega

/-- Sum of the `size` fields over the RX fragments. -/
theorem rxFrags_sum_size (c : Bool) (data len m : Nat) (hm : 1 ≤ m) (hm4 : m ≤ 4092) :
    ∀ j i, i + j = iterCount m len → i < iterCount m len →
      ((rxFrags c data len m i j).map (fun d => d.flags.size)).sum = len - m * i := by
  intro j
  induction j with
  | zero => intro i hij hi; omega
  | succ j ih =>
    intro i hij hi
    by_cases hk : i + 1 = iterCount m len
    · have hj0 : j = 0 := by omega
      subst hj0
      have hb : len - m * i ≤ m := (last_iff m len i hm hi).mpr hk
      simp only [rxFrags, List.map_cons, List.map_nil, List.sum_cons, List.sum_nil]
      simp [rxFragment, hk, Nat.mod_eq_of_lt (by omega : len - m * i < 4096)]
    · have hik : i + 1 < iterCount m len := by omega
      have hlt : m < len - m * i := by
        have := (last_iff m len i hm hi).not.mpr hk
        omega
      have hrest := ih (i + 1) (by omega) hik
      simp only [rxFrags, List.map_cons, List.sum_cons]
      rw [hrest]
      have hfrag : (rxFragment c data len m i).flags.size = m := by
        simp [rxFragment, hk, Nat.mod_eq_of_lt (by omega : m < 4096)]
      rw [hfrag]
      have hms : m * (i + 1) = m * i + m := Nat.mul_succ m i
      omega

/-! ## Claim C2 -/

/-- C2 counterexample: for `len = 0` the claim demands `ceil(0 / chunk) = 0`
used descriptors, but a successful non-circular TX build of zero bytes writes
one descriptor (the loop always runs once): the single descriptor carries
`suc_eof` and the DMA owner bit, so it is used, and `usedCount` is 1, not 0. -/
theorem C2_counterexample :
    fill_for_tx (fun _ => true) 0 4092 (List.replicate 1 DmaDescriptor.EMPTY) false 0 0 =
      some (.ok [{ flags := { size := 0, length := 0, suc_eof := true, owner := true },
                   buffer := 0, next := none }]) ∧
    usedCount [{ flags := { size := 0, length := 0, suc_eof := true, owner := true },
                 buffer := 0, next := none }] = 1 ∧
    divCeil 0 4092 = 0 := by
  refine ⟨by decide, by decide, by decide⟩

/-- C2 (amended): for every `len` and `chunk_size ∈ [1, 4092]`, a successful
non-circular TX build writes exactly `iterCount chunk_size len` descriptors,
which equals `ceil(len / chunk_size)` whenever `len ≥ 1` and equals 1 when
`len = 0`; the last written descriptor's `length` field is
`len - chunk_size * (count - 1)` and every earlier one is `chunk_size`. -/
theorem C2_nonCircular_chunking
    (valid : Nat → Bool) (firstA chunk_size : Nat) (descs : List DmaDescriptor)
    (data len : Nat) (L : List DmaDescriptor)
    (hc1 : 1 ≤ chunk_size) (hc2 : chunk_size ≤ 4092)
    (hL : fill_for_tx valid firstA chunk_size descs false data len = some (.ok L)) :
    usedCount L = iterCount chunk_size len ∧
    (1 ≤ len → iterCount chunk_size len = divCeil len chunk_size) ∧
    (len = 0 → iterCount chunk_size len = 1) ∧
    (∀ i, i + 1 < iterCount chunk_size len →
      (L.get? i).map DmaDescriptor.len = some chunk_size) ∧
    (L.get? (iterCount chunk_size len - 1)).map DmaDescriptor.len =
      some (len - chunk_size * (iterCount chunk_size len - 1)) := by
  obtain ⟨hm1, _, hkn, hLeq⟩ :=
    fill_for_tx_ok valid firstA chunk_size descs false data len L hc1 hL
  rw [maxChunk_false] at hm1 hkn hLeq
  have hkpos : 0 < iterCount chunk_size len := iterCount_pos _ _
  refine ⟨?_, ?_, ?_, ?_, ?_⟩
  · rw [hLeq, usedCount_pad _ _ (txFrags_owner false data len chunk_size _ 0),
       txFrags_length]
  · intro hl
    exact iterCount_eq_divCeil _ _ hc1 hl
  · intro h0
    subst h0
    simp [iterCount]
  · intro i hi
    rw [hLeq, List.get?_append (by rw [txFrags_length]; omega),
       txFrags_get false data len chunk_size _ 0 i (by omega)]
    have hne : ¬(0 + i + 1 = iterCount chunk_size len) := by omega
    have hne2 : ¬(i + 1 = iterCount chunk_size len) := by omega
    simp [txFragment, DmaDescriptor.len, hne, hne2,
      Nat.mod_eq_of_lt (by omega : chunk_size < 4096)]
  · rw [hLeq, List.get?_append (by rw [txFrags_length]; omega),
       txFrags_get false data len chunk_size _ 0 (iterCount chunk_size len - 1) (by omega)]
    have hke : 0 + (iterCount chunk_size len - 1) + 1 = iterCount chunk_size len := by omega
    have hb : len - chunk_size * (iterCount chunk_size len - 1) ≤ chunk_size :=
      (last_iff chunk_size len _ hc1 (by omega)).mpr (by omega)
    have hke2 : iterCount chunk_size len - 1 + 1 = iterCount chunk_size len := by omega
    simp [txFragment, DmaDescriptor.len, hke, hke2,
      Nat.mod_eq_of_lt (by omega : len - chunk_size * (iterCount chunk_size len - 1) < 4096)]

/-- C2 witness: linear TX of 100 bytes at chunk 32 (spec scenario 1):
4 descriptors, lengths 32, 32, 32, 4. -/
theorem C2_witness :
    usedCount (txFrags false 0 100 32 0 4 ++ List.replicate 0 DmaDescriptor.EMPTY) =
      iterCount 32 100 ∧
    ((txFrags false 0 100 32 0 4 ++ List.replicate 0 DmaDescriptor.EMPTY).get? 0).map
      DmaDescriptor.len = some 32 ∧
    ((txFrags false 0 100 32 0 4 ++ List.replicate 0 DmaDescriptor.EMPTY).get?
        (iterCount 32 100 - 1)).map DmaDescriptor.len =
      some (100 - 32 * (iterCount 32 100 - 1)) := by
  obtain ⟨h1, h2, h3, h4, h5⟩ := C2_nonCircular_chunking (fun _ => true) 0 32
    (List.replicate 4 DmaDescriptor.EMPTY) 0 100
    (txFrags false 0 100 32 0 4 ++ List.replicate 0 DmaDescriptor.EMPTY)
    (by decide) (by decide) (by decide)
  exact ⟨h1, h4 0 (by decide), h5⟩

/-! ## Claim C3 -/

/-- C3 counterexample: on the input (circular, `len = 2`, `chunk_size = 1`,
one descriptor) both preconditions fail, and the two builders return
different errors: RX checks `OutOfDescriptors` first, TX checks
`BufferTooSmall` first — the contracts are not symmetric. -/
theorem C3_counterexample :
    fill_for_rx (fun _ => true) 0 1 [DmaDescriptor.EMPTY] true 0 2 =
      some (.error .OutOfDescriptors) ∧
    fill_for_tx (fun _ => true) 0 1 [DmaDescriptor.EMPTY] true 0 2 =
      some (.error .BufferTooSmall) ∧
    fill_for_rx (fun _ => true) 0 1 [DmaDescriptor.EMPTY] true 0 2 ≠
      fill_for_tx (fun _ => true) 0 1 [DmaDescriptor.EMPTY] true 0 2 := by
  refine ⟨by decide, by decide, by decide⟩

/-- C3 (amended): the two builders order their precondition checks
differently.  On every input that passes the memory-region check but is both
short of descriptors (`descs.length < len.div_ceil(chunk_size)`) and circular
with `len ≤ 3`, `fill_for_rx` returns `OutOfDescriptors` (the spec's order)
while `fill_for_tx` returns `BufferTooSmall`. -/
theorem C3_error_precedence
    (valid : Nat → Bool) (firstA chunk_size : Nat) (descs : List DmaDescriptor)
    (data len : Nat)
    (hv1 : valid firstA = true)
    (hn : descs.length ≠ 0)
    (hv2 : valid (lastDescAddr firstA descs.length) = true)
    (hv3 : valid data = true) (hv4 : valid (data + len) = true)
    (hc : 1 ≤ chunk_size)
    (hshort : descs.length < divCeil len chunk_size)
    (hlen : len ≤ 3) :
    fill_for_rx valid firstA chunk_size descs true data len =
      some (.error .OutOfDescriptors) ∧
    fill_for_tx valid firstA chunk_size descs true data len =
      some (.error .BufferTooSmall) := by
  have hcz : ¬(chunk_size = 0) := by omega
  constructor
  · unfold fill_for_rx
    simp [hv1, hv2, hv3, hv4, hn, hcz, hshort]
  · unfold fill_for_tx
    simp [hv1, hv2, hv3, hv4, hn, hcz, hlen]

/-- C3 witness: the amended asymmetry at a concrete input. -/
theorem C3_witness :
    fill_for_rx (fun _ => true) 5 1 (List.replicate 1 DmaDescriptor.EMPTY) true 7 2 =
      some (.error .OutOfDescriptors) ∧
    fill_for_tx (fun _ => true) 5 1 (List.replicate 1 DmaDescriptor.EMPTY) true 7 2 =
      some (.error .BufferTooSmall) :=
  C3_error_precedence (fun _ => true) 5 1 (List.replicate 1 DmaDescriptor.EMPTY) 7 2
    rfl (by decide) rfl rfl rfl (by decide) (by decide) (by decide)

/-! ## Claim C10 -/

/-- C10 counterexample: with an empty descriptor array whose (dangling) first
address fails the DMA-RAM check, the short-circuit in the memory-region
condition returns `UnsupportedMemoryRegion` before `last()` is evaluated —
so not every empty-array input panics before returning an error. -/
theorem C10_counterexample :
    fill_for_tx (fun _ => false) 0 4092 [] true 0 2 =
      some (.error .UnsupportedMemoryRegion) ∧
    fill_for_rx (fun _ => false) 0 4092 [] false 0 0 =
      some (.error .UnsupportedMemoryRegion) := by
  refine ⟨by decide, by decide⟩

/-- C10 (amended): on every input with an empty descriptor array whose
first-descriptor address passes the DMA-RAM check (the realistic case: the
array lives in static RAM), both builders panic in `DescriptorChain::last`
(`unwrap` of `None`) before returning any error value — including `len = 0`,
where the sizing rule `ceil(0 / chunk)` would require zero descriptors. -/
theorem C10_empty_array_panics
    (valid : Nat → Bool) (firstA chunk_size : Nat) (circular : Bool) (data len : Nat)
    (hv : valid firstA = true) :
    fill_for_tx valid firstA chunk_size [] circular data len = none ∧
    fill_for_rx valid firstA chunk_size [] circular data len = none := by
  constructor
  · unfold fill_for_tx
    simp [hv]
  · unfold fill_for_rx
    simp [hv]

/-- C10 witness: empty array in valid RAM, `len = 0`: both builds panic. -/
theorem C10_witness :
    fill_for_tx (fun _ => true) 0 4092 [] false 0 0 = none ∧
    fill_for_rx (fun _ => true) 0 4092 [] false 0 0 = none :=
  C10_empty_array_panics (fun _ => true) 0 4092 false 0 0 rfl

/-! ## Claim C1 -/

/-- C1 counterexample: circular TX build of `len = 4` with `chunk_size = 4092`
(`len ∈ [4, 2*chunk_size]`).  The claim demands three fragments of sizes
`len/3 + len%3 = 2`, `1`, `1`; the code instead reuses `max_chunk_size` for
every fragment and finishes after two fragments of 2 bytes each — only two
descriptors are used. -/
theorem C1_counterexample :
    fill_for_tx (fun _ => true) 0 4092 (List.replicate 3 DmaDescriptor.EMPTY) true 0 4 =
      some (.ok
        [{ flags := { size := 2, length := 2, suc_eof := true, owner := true },
           buffer := 0, next := some 1 },
         { flags := { size := 2, length := 2, suc_eof := true, owner := true },
           buffer := 2, next := some 0 },
         DmaDescriptor.EMPTY]) ∧
    usedCount
        [{ flags := { size := 2, length := 2, suc_eof := true, owner := true },
           buffer := 0, next := some 1 },
         { flags := { size := 2, length := 2, suc_eof := true, owner := true },
           buffer := 2, next := some 0 },
         DmaDescriptor.EMPTY] = 2 := by
  refine ⟨by decide, by decide⟩

/-- C1 (amended): for circular builds (TX and RX) with
`chunk_size ∈ [1, 4092]` and `len ∈ [4, 2*chunk_size]`, let
`m = len/3 + len%3`.  The data is split into `iterCount m len = ceil(len/m)`
fragments — 2 or 3, not always 3 — each of `size` `m` except the last, which
has `size` `len - m*(count-1)`; exactly that many descriptors are used; the
`size` fields sum to `len` in both directions; the TX `length` fields sum to
`len`, while every RX `length` field is 0. -/
theorem C1_circular_split
    (validTx validRx : Nat → Bool) (fATx fARx chunk_size : Nat)
    (descsTx descsRx : List DmaDescriptor) (dataTx dataRx len : Nat)
    (Ltx Lrx : List DmaDescriptor)
    (hc1 : 1 ≤ chunk_size) (hc2 : chunk_size ≤ 4092)
    (h4 : 4 ≤ len) (h2c : len ≤ 2 * chunk_size)
    (htx : fill_for_tx validTx fATx chunk_size descsTx true dataTx len = some (.ok Ltx))
    (hrx : fill_for_rx validRx fARx chunk_size descsRx true dataRx len = some (.ok Lrx)) :
    usedCount Ltx = iterCount (len / 3 + len % 3) len ∧
    usedCount Lrx = iterCount (len / 3 + len % 3) len ∧
    2 ≤ iterCount (len / 3 + len % 3) len ∧
    iterCount (len / 3 + len % 3) len ≤ 3 ∧
    (Ltx.map DmaDescriptor.len).sum = len ∧
    (Ltx.map fun d => d.flags.size).sum = len ∧
    (Lrx.map fun d => d.flags.size).sum = len ∧
    (∀ d ∈ Lrx, d.flags.length = 0) ∧
    (∀ i, i + 1 < iterCount (len / 3 + len % 3) len →
      (Ltx.get? i).map (fun d => d.flags.size) = some (len / 3 + len % 3)) ∧
    (Ltx.get? (iterCount (len / 3 + len % 3) len - 1)).map (fun d => d.flags.size) =
      some (len - (len / 3 + len % 3) * (iterCount (len / 3 + len % 3) len - 1)) := by
  have hmc : maxChunk true chunk_size len = len / 3 + len % 3 :=
    maxChunk_circ _ _ (by omega)
  obtain ⟨hm1, _, hknTx, hLtx⟩ :=
    fill_for_tx_ok validTx fATx chunk_size descsTx true dataTx len Ltx hc1 htx
  obtain ⟨_, _, hknRx, hLrx⟩ :=
    fill_for_rx_ok validRx fARx chunk_size descsRx true dataRx len Lrx hc1 hrx
  rw [hmc] at hm1 hknTx hLtx hknRx hLrx
  have hm4 : len / 3 + len % 3 ≤ 4092 := circ_m_le len (by omega)
  have hkb := circ_iterCount_bounds len h4
  have hkpos : 0 < iterCount (len / 3 + len % 3) len := iterCount_pos _ _
  refine ⟨?_, ?_, hkb.1, hkb.2, ?_, ?_, ?_, ?_, ?_, ?_⟩
  · rw [hLtx, usedCount_pad _ _ (txFrags_owner true dataTx len (len / 3 + len % 3) _ 0),
       txFrags_length]
  · rw [hLrx, usedCount_pad _ _ (rxFrags_owner true dataRx len (len / 3 + len % 3) _ 0),
       rxFrags_length]
  · rw [hLtx, List.map_append, List.sum_append]
    rw [txFrags_sum_len true dataTx len (len / 3 + len % 3) hm1 hm4 _ 0 (by omega) hkpos]
    simp [List.map_replicate, DmaDescriptor.len, DmaDescriptor.EMPTY, List.sum_replicate]
  · rw [hLtx, List.map_append, List.sum_append]
    rw [txFrags_sum_size true dataTx len (len / 3 + len % 3) hm1 hm4 _ 0 (by omega) hkpos]
    simp [List.map_replicate, DmaDescriptor.EMPTY, List.sum_replicate]
  · rw [hLrx, List.map_append, List.sum_append]
    rw [rxFrags_sum_size true dataRx len (len / 3 + len % 3) hm1 hm4 _ 0 (by omega) hkpos]
    simp [List.map_replicate, DmaDescriptor.EMPTY, List.sum_replicate]
  · intro d hd
    rw [hLrx] at hd
    rcases List.mem_append.mp hd with hd | hd
    · exact rxFrags_len_zero true dataRx len (len / 3 + len % 3) _ 0 d hd
    · rw [List.eq_of_mem_replicate hd]
      rfl
  · intro i hi
    rw [hLtx, List.get?_append (by rw [txFrags_length]; omega),
       txFrags_get true dataTx len (len / 3 + len % 3) _ 0 i (by omega)]
    have hne : ¬(0 + i + 1 = iterCount (len / 3 + len % 3) len) := by omega
    have hne2 : ¬(i + 1 = iterCount (len / 3 + len % 3) len) := by omega
    simp [txFragment, hne, hne2, Nat.mod_eq_of_lt (by omega : len / 3 + len % 3 < 4096)]
  · rw [hLtx, List.get?_append (by rw [txFrags_length]; omega),
       txFrags_get true dataTx len (len / 3 + len % 3) _ 0
         (iterCount (len / 3 + len % 3) len - 1) (by omega)]
    have hke : 0 + (iterCount (len / 3 + len % 3) len - 1) + 1 =
        iterCount (len / 3 + len % 3) len := by omega
    have hke2 : iterCount (len / 3 + len % 3) len - 1 + 1 =
        iterCount (len / 3 + len % 3) len := by omega
    have hb : len - (len / 3 + len % 3) * (iterCount (len / 3 + len % 3) len - 1) ≤
        len / 3 + len % 3 :=
      (last_iff (len / 3 + len % 3) len _ hm1 (by omega)).mpr (by omega)
    simp [txFragment, hke, hke2, Nat.mod_eq_of_lt (by omega :
      len - (len / 3 + len % 3) * (iterCount (len / 3 + len % 3) len - 1) < 4096)]

/-- C1 witness: circular builds of 6 bytes at chunk 4092 split into three
2-byte fragments in both directions. -/
theorem C1_witness :
    usedCount (txFrags true 0 6 2 0 3 ++ List.replicate 0 DmaDescriptor.EMPTY) =
      iterCount (6 / 3 + 6 % 3) 6 ∧
    usedCount (rxFrags true 0 6 2 0 3 ++ List.replicate 0 DmaDescriptor.EMPTY) =
      iterCount (6 / 3 + 6 % 3) 6 ∧
    ((txFrags true 0 6 2 0 3 ++ List.replicate 0 DmaDescriptor.EMPTY).map
      DmaDescriptor.len).sum = 6 ∧
    ((rxFrags true 0 6 2 0 3 ++ List.replicate 0 DmaDescriptor.EMPTY).map
      fun d => d.flags.size).sum = 6 := by
  obtain ⟨u1, u2, _, _, s1, _, s2, _, _, _⟩ :=
    C1_circular_split (fun _ => true) (fun _ => true) 0 0 4092
      (List.replicate 3 DmaDescriptor.EMPTY) (List.replicate 3 DmaDescriptor.EMPTY)
      0 0 6
      (txFrags true 0 6 2 0 3 ++ List.replicate 0 DmaDescriptor.EMPTY)
      (rxFrags true 0 6 2 0 3 ++ List.replicate 0 DmaDescriptor.EMPTY)
      (by decide) (by decide) (by decide) (by decide) (by decide) (by decide)
  exact ⟨u1, u2, s1, s2⟩

/-! ## Claim C4 -/

/-- C4 counterexample: a successful non-circular TX build whose array is a
single descriptor.  After the build, `suc_eof` is true on every descriptor of
the array (the only one is the final fragment), yet the build was not
circular — the claimed equivalence fails in the right-to-left direction. -/
theorem C4_counterexample :
    fill_for_tx (fun _ => true) 0 4092 (List.replicate 1 DmaDescriptor.EMPTY) false 0 10 =
      some (.ok [{ flags := { size := 10, length := 10, suc_eof := true, owner := true },
                   buffer := 0, next := none }]) ∧
    ([{ flags := { size := 10, length := 10, suc_eof := true, owner := true },
        buffer := 0, next := none }] : List DmaDescriptor).all
      (fun d => d.flags.suc_eof) = true := by
  refine ⟨by decide, by decide⟩

/-- C4 (amended): after a successful TX build, the descriptor written at
position `i < fragCount` has `suc_eof = circular OR (i is the final
fragment)`; positions at and beyond `fragCount` keep the cleared `EMPTY`
flags (`suc_eof = false`).  Hence in circular mode every written descriptor
asserts EOF, in non-circular mode only the final written one does — but the
claimed array-wide equivalence with circularity fails when the array is
longer than the written prefix or when a non-circular build has exactly one
fragment. -/
theorem C4_eof_flags
    (valid : Nat → Bool) (firstA chunk_size : Nat) (descs : List DmaDescriptor)
    (circular : Bool) (data len : Nat) (L : List DmaDescriptor)
    (hc1 : 1 ≤ chunk_size)
    (hL : fill_for_tx valid firstA chunk_size descs circular data len = some (.ok L)) :
    (∀ i d, L.get? i = some d → i < fragCount circular chunk_size len →
      d.flags.suc_eof = (circular || decide (i + 1 = fragCount circular chunk_size len))) ∧
    (∀ i d, L.get? i = some d → fragCount circular chunk_size len ≤ i →
      d.flags.suc_eof = false) := by
  obtain ⟨hm1, _, hkn, hLeq⟩ :=
    fill_for_tx_ok valid firstA chunk_size descs circular data len L hc1 hL
  constructor
  · intro i d hget hik
    simp only [fragCount] at hik
    rw [hLeq, List.get?_append (by rw [txFrags_length]; exact hik),
       txFrags_get circular data len _ _ 0 i hik] at hget
    have hd : d = txFragment circular data len (maxChunk circular chunk_size len) (0 + i) :=
      (Option.some.inj hget).symm
    subst hd
    simp [txFragment, fragCount, Nat.zero_add]
  · intro i d hget hik
    simp only [fragCount] at hik
    have hLlen : i < L.length := (List.get?_eq_some.mp hget).1
    rw [hLeq] at hget hLlen
    rw [List.length_append, txFrags_length, List.length_replicate] at hLlen
    rw [List.get?_append_right (by rw [txFrags_length]; exact hik)] at hget
    rw [txFrags_length] at hget
    rw [get_replicate DmaDescriptor.EMPTY _ _ (by omega)] at hget
    have hd : d = DmaDescriptor.EMPTY := (Option.some.inj hget).symm
    subst hd
    rfl

/-- C4 witness: in the 3-fragment circular build of 6 bytes, the first
written descriptor asserts EOF. -/
theorem C4_witness :
    (txFragment true 0 6 2 0).flags.suc_eof = true := by
  obtain ⟨p1, _⟩ := C4_eof_flags (fun _ => true) 0 4092
    (List.replicate 3 DmaDescriptor.EMPTY) true 0 6
    (txFrags true 0 6 2 0 3 ++ List.replicate 0 DmaDescriptor.EMPTY)
    (by decide) (by decide)
  have := p1 0 (txFragment true 0 6 2 0) (by decide) (by decide)
  simpa using this

/-! ## Claim C5 -/

/-- C5 counterexample: a successful non-circular TX build over a 2-entry
array that needs only one descriptor.  The second array entry is reset to
`EMPTY`, whose owner bit is CPU — so not every descriptor of the array ends
up DMA-owned. -/
theorem C5_counterexample :
    fill_for_tx (fun _ => true) 0 4092 (List.replicate 2 DmaDescriptor.EMPTY) false 0 10 =
      some (.ok [{ flags := { size := 10, length := 10, suc_eof := true, owner := true },
                   buffer := 0, next := none },
                 DmaDescriptor.EMPTY]) ∧
    DmaDescriptor.owner DmaDescriptor.EMPTY = Owner.Cpu := by
  refine ⟨by decide, by decide⟩

/-- C5 (amended): after every successful build (TX or RX, circular or not),
every descriptor the build wrote (positions below `fragCount`) has its owner
bit set to DMA; array entries beyond the written prefix are reset to `EMPTY`,
whose owner bit is CPU. -/
theorem C5_owner_dma
    (validTx validRx : Nat → Bool) (fATx fARx chunk_size : Nat)
    (descsTx descsRx : List DmaDescriptor) (circTx circRx : Bool)
    (dataTx dataRx lenTx lenRx : Nat) (Ltx Lrx : List DmaDescriptor)
    (hc1 : 1 ≤ chunk_size)
    (htx : fill_for_tx validTx fATx chunk_size descsTx circTx dataTx lenTx =
      some (.ok Ltx))
    (hrx : fill_for_rx validRx fARx chunk_size descsRx circRx dataRx lenRx =
      some (.ok Lrx)) :
    (∀ i d, Ltx.get? i = some d → i < fragCount circTx chunk_size lenTx →
      DmaDescriptor.owner d = Owner.Dma) ∧
    (∀ i d, Ltx.get? i = some d → fragCount circTx chunk_size lenTx ≤ i →
      d = DmaDescriptor.EMPTY) ∧
    (∀ i d, Lrx.get? i = some d → i < fragCount circRx chunk_size lenRx →
      DmaDescriptor.owner d = Owner.Dma) ∧
    (∀ i d, Lrx.get? i = some d → fragCount circRx chunk_size lenRx ≤ i →
      d = DmaDescriptor.EMPTY) := by
  obtain ⟨_, _, hknTx, hLtx⟩ :=
    fill_for_tx_ok validTx fATx chunk_size descsTx circTx dataTx lenTx Ltx hc1 htx
  obtain ⟨_, _, hknRx, hLrx⟩ :=
    fill_for_rx_ok validRx fARx chunk_size descsRx circRx dataRx lenRx Lrx hc1 hrx
  refine ⟨?_, ?_, ?_, ?_⟩
  · intro i d hget hik
    simp only [fragCount] at hik
    rw [hLtx, List.get?_append (by rw [txFrags_length]; exact hik),
       txFrags_get circTx dataTx lenTx _ _ 0 i hik] at hget
    have hd : d = txFragment circTx dataTx lenTx (maxChunk circTx chunk_size lenTx) (0 + i) :=
      (Option.some.inj hget).symm
    subst hd
    rfl
  · intro i d hget hik
    simp only [fragCount] at hik
    have hLlen : i < Ltx.length := (List.get?_eq_some.mp hget).1
    rw [hLtx] at hget hLlen
    rw [List.length_append, txFrags_length, List.length_replicate] at hLlen
    rw [List.get?_append_right (by rw [txFrags_length]; exact hik)] at hget
    rw [txFrags_length] at hget
    rw [get_replicate DmaDescriptor.EMPTY _ _ (by omega)] at hget
    exact (Option.some.inj hget).symm
  · intro i d hget hik
    simp only [fragCount] at hik
    rw [hLrx, List.get?_append (by rw [rxFrags_length]; exact hik),
       rxFrags_get circRx dataRx lenRx _ _ 0 i hik] at hget
    have hd : d = rxFragment circRx dataRx lenRx (maxChunk circRx chunk_size lenRx) (0 + i) :=
      (Option.some.inj hget).symm
    subst hd
    rfl
  · intro i d hget hik
    simp only [fragCount] at hik
    have hLlen : i < Lrx.length := (List.get?_eq_some.mp hget).1
    rw [hLrx] at hget hLlen
    rw [List.length_append, rxFrags_length, List.length_replicate] at hLlen
    rw [List.get?_append_right (by rw [rxFrags_length]; exact hik)] at hget
    rw [rxFrags_length] at hget
    rw [get_replicate DmaDescriptor.EMPTY _ _ (by omega)] at hget
    exact (Option.some.inj hget).symm

/-- C5 witness: the first descriptor of a linear 100-byte TX build at chunk
32 (and of the matching RX build) is DMA-owned. -/
theorem C5_witness :
    DmaDescriptor.owner (txFragment false 0 100 32 0) = Owner.Dma ∧
    DmaDescriptor.owner (rxFragment false 0 100 32 0) = Owner.Dma := by
  obtain ⟨p1, _, p3, _⟩ := C5_owner_dma (fun _ => true) (fun _ => true) 0 0 32
    (List.replicate 4 DmaDescriptor.EMPTY) (List.replicate 4 DmaDescriptor.EMPTY)
    false false 0 0 100 100
    (txFrags false 0 100 32 0 4 ++ List.replicate 0 DmaDescriptor.EMPTY)
    (rxFrags false 0 100 32 0 4 ++ List.replicate 0 DmaDescriptor.EMPTY)
    (by decide) (by decide) (by decide)
  exact ⟨p1 0 (txFragment false 0 100 32 0) (by decide) (by decide),
    p3 0 (rxFragment false 0 100 32 0) (by decide) (by decide)⟩

/-! ## Claim C8 -/

/-- With the EOF latch clear, `TxCircularState::update` returns immediately
without touching the state. -/
theorem txUpdate_nolatch (descs : List DmaDescriptor) (fuel : Nat)
    (s : TxCircularState) (ch : TxChannelState)
    (h : ch.descriptors_handled = false) :
    txUpdate descs fuel s ch = some (s, ch) := by
  simp [txUpdate, h]

/-- Every successful `txUpdate` leaves the latch clear: either it ran and
cleared it, or it was already clear and nothing changed. -/
theorem txUpdate_latch_cleared (descs : List DmaDescriptor) (fuel : Nat)
    (s : TxCircularState) (ch : TxChannelState) (s1 : TxCircularState)
    (ch1 : TxChannelState) (h : txUpdate descs fuel s ch = some (s1, ch1)) :
    ch1.descriptors_handled = false ∨
      (ch.descriptors_handled = false ∧ s1 = s ∧ ch1 = ch) := by
  cases hdl : ch.descriptors_handled with
  | false =>
    right
    rw [txUpdate_nolatch descs fuel s ch hdl] at h
    simp only [Option.some.injEq, Prod.mk.injEq] at h
    exact ⟨rfl, h.1.symm, h.2.symm⟩
  | true =>
    left
    unfold txUpdate at h
    rw [hdl] at h
    simp only [if_true] at h
    split at h
    · exact absurd h (by simp)
    · split at h
      · split at h
        · exact absurd h (by simp)
        · split at h
          · exact absurd h (by simp)
          · simp only [Option.some.injEq, Prod.mk.injEq] at h
            rw [← h.2]
      · simp only [Option.some.injEq, Prod.mk.injEq] at h
        rw [← h.2]

/-- A successful RX ownership walk stops at a DMA-owned descriptor: the
final `last_seen` has a readable `next` whose descriptor is DMA-owned. -/
theorem rxWalk_post (descs : List DmaDescriptor) :
    ∀ (fuel avail ls a1 ls1 : Nat),
      rxWalk descs fuel avail ls = some (a1, ls1) →
      ∃ d nxt cur, descs.get? ls1 = some d ∧ d.next = some nxt ∧
        descs.get? nxt = some cur ∧ DmaDescriptor.owner cur = Owner.Dma := by
  intro fuel
  induction fuel with
  | zero => intro avail ls a1 ls1 h; exact absurd h (by simp [rxWalk])
  | succ fuel ih =>
    intro avail ls a1 ls1 h
    rw [rxWalk] at h
    split at h
    · exact absurd h (by simp)
    · rename_i d hd
      split at h
      · exact absurd h (by simp)
      · rename_i nxt hnxt
        split at h
        · exact absurd h (by simp)
        · rename_i cur hcur
          split at h
          · exact ih _ _ _ _ h
          · rename_i hown
            simp only [Option.some.injEq, Prod.mk.injEq] at h
            refine ⟨d, nxt, cur, ?_, hnxt, hcur, ?_⟩
            · rw [← h.2]; exact hd
            · cases hoc : DmaDescriptor.owner cur with
              | Cpu => exact absurd hoc hown
              | Dma => rfl

/-- C8: calling `update` twice with no hardware progress in between (for TX:
the EOF latch, once cleared by `reset_descriptors_handled`, stays clear; the
descriptor memory is unchanged) leaves the state equal to the state after
calling it once — for both `TxCircularState::update` and
`RxCircularState::update`. -/
theorem C8_idempotent_update :
    (∀ (descs : List DmaDescriptor) (fuel fuel2 : Nat) (s : TxCircularState)
       (ch : TxChannelState) (s1 : TxCircularState) (ch1 : TxChannelState),
      txUpdate descs fuel s ch = some (s1, ch1) →
      txUpdate descs fuel2 s1 ch1 = some (s1, ch1)) ∧
    (∀ (descs : List DmaDescriptor) (fuel fuel2 : Nat) (s s1 : RxCircularState),
      RxCircularState.update descs fuel s = some s1 → 1 ≤ fuel2 →
      RxCircularState.update descs fuel2 s1 = some s1) := by
  constructor
  · intro descs fuel fuel2 s ch s1 ch1 h
    rcases txUpdate_latch_cleared descs fuel s ch s1 ch1 h with hcl | ⟨hdl, hs, hc⟩
    · exact txUpdate_nolatch descs fuel2 s1 ch1 hcl
    · subst hs; subst hc
      exact txUpdate_nolatch descs fuel2 s1 ch1 hdl
  · intro descs fuel fuel2 s s1 h hf2
    unfold RxCircularState.update at h
    split at h
    · exact absurd h (by simp)
    · rename_i a1 ls1 hwalk
      obtain ⟨d, nxt, cur, hd, hnxt, hcur, hown⟩ := rxWalk_post descs _ _ _ _ _ hwalk
      have hs1 : s1 =
          { s with
              available := a1,
              last_seen_handled_descriptor_ptr := some ls1 } :=
        (Option.some.inj h).symm
      obtain ⟨f2, rfl⟩ : ∃ f2, fuel2 = f2 + 1 := ⟨fuel2 - 1, by omega⟩
      subst hs1
      have hownCpu : ¬(DmaDescriptor.owner cur = Owner.Cpu) := by rw [hown]; simp
      rw [List.get?_eq_getElem?] at hd hcur
      unfold RxCircularState.update
      simp [startPtr, rxWalk, hd, hnxt, hcur, hownCpu]

/-- C8 witness: a single update on a one-descriptor chain, repeated, is a
no-op the second time (TX with the latch set, and RX). -/
theorem C8_witness :
    txUpdate [{ flags := { size := 4, length := 4, suc_eof := false, owner := true },
                buffer := 0, next := some 0 }] 3
        { write_offset := 0, write_descr_ptr := 0, available := 0,
          last_seen_handled_descriptor_ptr := 0, buffer_start := 0,
          buffer_len := 4, first_desc_ptr := 0 }
        { descriptors_handled := false, last_out_dscr_address := 0 } =
      some ({ write_offset := 0, write_descr_ptr := 0, available := 0,
              last_seen_handled_descriptor_ptr := 0, buffer_start := 0,
              buffer_len := 4, first_desc_ptr := 0 },
            { descriptors_handled := false, last_out_dscr_address := 0 }) ∧
    RxCircularState.update
        [{ flags := { size := 4, length := 4, suc_eof := false, owner := true },
           buffer := 0, next := some 0 }] 2
        { read_descr_ptr := some 0, available := 0,
          last_seen_handled_descriptor_ptr := some 0, last_descr_ptr := 0 } =
      some { read_descr_ptr := some 0, available := 0,
             last_seen_handled_descriptor_ptr := some 0, last_descr_ptr := 0 } := by
  constructor
  · exact (C8_idempotent_update.1
      [{ flags := { size := 4, length := 4, suc_eof := false, owner := true },
         buffer := 0, next := some 0 }] 3 3
      { write_offset := 0, write_descr_ptr := 0, available := 0,
        last_seen_handled_descriptor_ptr := 0, buffer_start := 0,
        buffer_len := 4, first_desc_ptr := 0 }
      { descriptors_handled := false, last_out_dscr_address := 0 }
      { write_offset := 0, write_descr_ptr := 0, available := 0,
        last_seen_handled_descriptor_ptr := 0, buffer_start := 0,
        buffer_len := 4, first_desc_ptr := 0 }
      { descriptors_handled := false, last_out_dscr_address := 0 } (by decide))
  · exact (C8_idempotent_update.2
      [{ flags := { size := 4, length := 4, suc_eof := false, owner := true },
         buffer := 0, next := some 0 }] 2 2
      { read_descr_ptr := some 0, available := 0,
        last_seen_handled_descriptor_ptr := some 0, last_descr_ptr := 0 }
      { read_descr_ptr := some 0, available := 0,
        last_seen_handled_descriptor_ptr := some 0, last_descr_ptr := 0 }
      (by decide) (by decide))

/-! ## Claim C9 -/

/-- On a chain whose descriptors are all CPU-owned with in-range links, the
RX ownership walk never stops: it exhausts any fuel. -/
theorem rxWalk_allCpu (descs : List DmaDescriptor)
    (hcpu : ∀ d ∈ descs, DmaDescriptor.owner d = Owner.Cpu)
    (hnext : nextInRangeB descs = true) :
    ∀ (fuel avail ls : Nat), ls < descs.length →
      rxWalk descs fuel avail ls = none := by
  intro fuel
  induction fuel with
  | zero => intro avail ls hls; rfl
  | succ fuel ih =>
    intro avail ls hls
    have hd : descs.get? ls = some (descs.get ⟨ls, hls⟩) := List.get?_eq_get hls
    have hmem : descs.get ⟨ls, hls⟩ ∈ descs := List.get_mem descs ls hls
    have hrange := List.all_eq_true.mp hnext _ hmem
    obtain ⟨j, hj, hjlt⟩ : ∃ j, (descs.get ⟨ls, hls⟩).next = some j ∧ j < descs.length := by
      revert hrange
      cases hnn : (descs.get ⟨ls, hls⟩).next with
      | none => simp
      | some j => intro hr; exact ⟨j, rfl, by simpa using hr⟩
    have hcurd : descs.get? j = some (descs.get ⟨j, hjlt⟩) := List.get?_eq_get hjlt
    have hcmem : descs.get ⟨j, hjlt⟩ ∈ descs := List.get_mem descs j hjlt
    have hcown : DmaDescriptor.owner (descs.get ⟨j, hjlt⟩) = Owner.Cpu := hcpu _ hcmem
    rw [rxWalk]
    simp only [hd, hj, hcurd, hcown, if_true]
    exact ih _ j hjlt

/-- On an all-CPU chain the walk takes any number of steps, and `available`
grows by at least one byte per step when every descriptor holds data. -/
theorem rxWalkSteps_allCpu (descs : List DmaDescriptor)
    (hcpu : ∀ d ∈ descs, DmaDescriptor.owner d = Owner.Cpu)
    (hnext : nextInRangeB descs = true) :
    ∀ (n avail ls : Nat), ls < descs.length →
      ∃ a1 ls1, rxWalkSteps descs n avail ls = some (a1, ls1) ∧ ls1 < descs.length ∧
        ((∀ d ∈ descs, 1 ≤ DmaDescriptor.len d) → avail + n ≤ a1) := by
  intro n
  induction n with
  | zero =>
    intro avail ls hls
    exact ⟨avail, ls, rfl, hls, fun _ => by omega⟩
  | succ n ih =>
    intro avail ls hls
    have hd : descs.get? ls = some (descs.get ⟨ls, hls⟩) := List.get?_eq_get hls
    have hmem : descs.get ⟨ls, hls⟩ ∈ descs := List.get_mem descs ls hls
    have hrange := List.all_eq_true.mp hnext _ hmem
    obtain ⟨j, hj, hjlt⟩ : ∃ j, (descs.get ⟨ls, hls⟩).next = some j ∧ j < descs.length := by
      revert hrange
      cases hnn : (descs.get ⟨ls, hls⟩).next with
      | none => simp
      | some j => intro hr; exact ⟨j, rfl, by simpa using hr⟩
    have hcurd : descs.get? j = some (descs.get ⟨j, hjlt⟩) := List.get?_eq_get hjlt
    have hcmem : descs.get ⟨j, hjlt⟩ ∈ descs := List.get_mem descs j hjlt
    have hcown : DmaDescriptor.owner (descs.get ⟨j, hjlt⟩) = Owner.Cpu := hcpu _ hcmem
    obtain ⟨a1, ls1, hsteps, hls1, hgrow⟩ :=
      ih (avail + (descs.get ⟨j, hjlt⟩).len) j hjlt
    refine ⟨a1, ls1, ?_, hls1, ?_⟩
    · rw [rxWalkSteps]
      simp only [hd, hj, hcurd, hcown, if_true]
      exact hsteps
    · intro hlens
      have h1 : 1 ≤ (descs.get ⟨j, hjlt⟩).len := hlens _ hcmem
      have := hgrow hlens
      omega

/-- C9: `RxCircularState::update` terminates only if a DMA-owned descriptor
is reachable along `next`: on a circular chain in which every descriptor is
CPU-owned, the walk revisits the ring forever — `update` returns for no
fuel bound — and `available` grows without bound (by at least one byte per
step once every descriptor holds at least one byte). -/
theorem C9_rx_update_nontermination
    (descs : List DmaDescriptor) (s : RxCircularState)
    (hcpu : ∀ d ∈ descs, DmaDescriptor.owner d = Owner.Cpu)
    (hnext : nextInRangeB descs = true)
    (hstart : startPtr s < descs.length) :
    (∀ fuel, RxCircularState.update descs fuel s = none) ∧
    (∀ (n avail ls : Nat), ls < descs.length →
      ∃ a1 ls1, rxWalkSteps descs n avail ls = some (a1, ls1) ∧
        ((∀ d ∈ descs, 1 ≤ DmaDescriptor.len d) → avail + n ≤ a1)) := by
  constructor
  · intro fuel
    have hwalk := rxWalk_allCpu descs hcpu hnext fuel s.available (startPtr s) hstart
    unfold RxCircularState.update
    rw [hwalk]
  · intro n avail ls hls
    obtain ⟨a1, ls1, hsteps, _, hgrow⟩ := rxWalkSteps_allCpu descs hcpu hnext n avail ls hls
    exact ⟨a1, ls1, hsteps, hgrow⟩

/-- C9 witness: on a one-descriptor all-CPU ring, `update` fails to
terminate for any fuel, and the walk has accumulated at least 5 bytes after
5 steps. -/
theorem C9_witness :
    RxCircularState.update
        [{ flags := { size := 4, length := 1, suc_eof := false, owner := false },
           buffer := 0, next := some 0 }] 7
        { read_descr_ptr := some 0, available := 0,
          last_seen_handled_descriptor_ptr := none, last_descr_ptr := 0 } = none := by
  exact (C9_rx_update_nontermination
    [{ flags := { size := 4, length := 1, suc_eof := false, owner := false },
       buffer := 0, next := some 0 }]
    { read_descr_ptr := some 0, available := 0,
      last_seen_handled_descriptor_ptr := none, last_descr_ptr := 0 }
    (by decide) (by decide) (by decide)).1 7

/-! ## Claim C6 -/

/-- Unpacking `ringOkB`: every readable descriptor holds at least one byte
and links inside the array. -/
theorem ringOk_spec (descs : List DmaDescriptor) (h : ringOkB descs = true) :
    ∀ (ptr : Nat) (d : DmaDescriptor), descs.get? ptr = some d →
      1 ≤ DmaDescriptor.len d ∧ ∀ p, d.next = some p → p < descs.length := by
  intro ptr d hd
  have hmem : d ∈ descs := List.get?_mem hd
  have hall := List.all_eq_true.mp h d hmem
  simp only [Bool.and_eq_true, decide_eq_true_eq] at hall
  refine ⟨hall.1, ?_⟩
  intro p hp
  have h2 := hall.2
  rw [hp] at h2
  simpa using h2

/-- The `push_with` descriptor walk succeeds and stays inside the array when
the ring is sane and the fuel covers the number of bytes advanced. -/
theorem pushAdvance_ok (descs : List DmaDescriptor) (first : Nat)
    (hring : ringOkB descs = true) (hfirst : first < descs.length) :
    ∀ (wfuel forward ptr : Nat), ptr < descs.length → forward < wfuel →
      ∃ ptr1, pushAdvance descs first wfuel ptr forward = some ptr1 ∧
        ptr1 < descs.length := by
  intro wfuel
  induction wfuel with
  | zero => intro forward ptr hp hf; omega
  | succ wfuel ih =>
    intro forward ptr hp hf
    have hd : descs.get? ptr = some (descs.get ⟨ptr, hp⟩) := List.get?_eq_get hp
    obtain ⟨hlen1, hnx⟩ := ringOk_spec descs hring ptr _ hd
    have hptr1 : (match (descs.get ⟨ptr, hp⟩).next with
        | none => first | some p => p) < descs.length := by
      cases hn : (descs.get ⟨ptr, hp⟩).next with
      | none => simpa using hfirst
      | some p => simpa using hnx p hn
    by_cases hfw : forward ≤ DmaDescriptor.len (descs.get ⟨ptr, hp⟩)
    · refine ⟨_, ?_, hptr1⟩
      rw [pushAdvance]
      simp only [hd]
      rw [if_pos hfw]
    · have hlt : forward - DmaDescriptor.len (descs.get ⟨ptr, hp⟩) < wfuel := by omega
      obtain ⟨p1, hp1, hp1lt⟩ := ih (forward - DmaDescriptor.len (descs.get ⟨ptr, hp⟩)) _
        hptr1 hlt
      refine ⟨p1, ?_, hp1lt⟩
      rw [pushAdvance]
      simp only [hd]
      rw [if_neg hfw]
      exact hp1

/-- One `push_with` call made from inside `push` writes at least one byte
and preserves the ring invariants. -/
theorem push_with_step_ok (descs : List DmaDescriptor) (wfuel : Nat)
    (s : TxCircularState) (buf data : List Nat) (offset : Nat)
    (hring : ringOkB descs = true) (hfirst : s.first_desc_ptr < descs.length)
    (hptr : s.write_descr_ptr < descs.length)
    (hwo : s.write_offset < s.buffer_len)
    (havail : 1 ≤ s.available)
    (hoff : offset < data.length)
    (hwf : data.length < wfuel) :
    ∃ s1 buf1, push_with_step descs wfuel s buf data offset =
        some (min (min s.available (s.buffer_len - s.write_offset))
          (data.length - offset), s1, buf1) ∧
      s1.write_offset < s1.buffer_len ∧ s1.buffer_len = s.buffer_len ∧
      s1.first_desc_ptr = s.first_desc_ptr ∧ s1.write_descr_ptr < descs.length ∧
      s1.available = s.available -
        min (min s.available (s.buffer_len - s.write_offset)) (data.length - offset) := by
  have hwlt : min (min s.available (s.buffer_len - s.write_offset))
      (data.length - offset) < wfuel := by omega
  obtain ⟨p1, hp1, hp1lt⟩ := pushAdvance_ok descs s.first_desc_ptr hring hfirst wfuel
    (min (min s.available (s.buffer_len - s.write_offset)) (data.length - offset))
    s.write_descr_ptr hptr hwlt
  refine ⟨{ s with
      write_offset := (s.write_offset +
        min (min s.available (s.buffer_len - s.write_offset)) (data.length - offset)) %
        s.buffer_len,
      write_descr_ptr := p1,
      available := s.available -
        min (min s.available (s.buffer_len - s.write_offset)) (data.length - offset) },
    listCopy buf s.write_offset ((data.drop offset).take
      (min (min s.available (s.buffer_len - s.write_offset)) (data.length - offset))),
    ?_, ?_, rfl, rfl, hp1lt, rfl⟩
  · simp only [push_with_step]
    rw [hp1]
    simp only [if_neg (by omega : ¬(s.buffer_len = 0))]
  · exact Nat.mod_lt _ (by omega)

/-- The push copy loop terminates with a success for any caller that offers
at most `available` bytes over a sane ring. -/
theorem pushLoop_ok (descs : List DmaDescriptor) (data : List Nat) (wfuel : Nat)
    (hring : ringOkB descs = true) (hwf : data.length < wfuel) :
    ∀ (fuel remaining offset : Nat) (s : TxCircularState) (buf : List Nat),
      s.first_desc_ptr < descs.length →
      s.write_descr_ptr < descs.length →
      s.write_offset < s.buffer_len →
      offset + remaining = data.length →
      remaining ≤ s.available →
      remaining < fuel →
      ∃ s1 buf1, pushLoop descs data wfuel fuel remaining offset s buf =
        some (s1, buf1) := by
  intro fuel
  induction fuel with
  | zero => intro remaining offset s buf _ _ _ _ _ hrf; omega
  | succ fuel ih =>
    intro remaining offset s buf hfirst hptr hwo hsum hra hrf
    by_cases hrem : remaining = 0
    · refine ⟨s, buf, ?_⟩
      rw [pushLoop, if_neg (by omega)]
    · have hoff : offset < data.length := by omega
      obtain ⟨s1, buf1, hstep, hwo1, hbl1, hfp1, hwp1, hav1⟩ :=
        push_with_step_ok descs wfuel s buf data offset hring hfirst hptr hwo
          (by omega) hoff hwf
      have hwle : min (min s.available (s.buffer_len - s.write_offset))
          (data.length - offset) ≤ remaining := by omega
      have hw1 : 1 ≤ min (min s.available (s.buffer_len - s.write_offset))
          (data.length - offset) := by omega
      obtain ⟨s2, buf2, hrec⟩ := ih
        (remaining - min (min s.available (s.buffer_len - s.write_offset))
          (data.length - offset))
        (offset + min (min s.available (s.buffer_len - s.write_offset))
          (data.length - offset))
        s1 buf1 (by omega) hwp1 hwo1 (by omega) (by omega) (by omega)
      refine ⟨s2, buf2, ?_⟩
      rw [pushLoop, if_pos (by omega), hstep]
      exact hrec

/-- C6: `TxCircularState::push` fails with `Overflow` exactly when more bytes
are offered than `available` at entry, and then returns with the state (all
fields) and the ring buffer unchanged; otherwise — over a sane built ring
(positive descriptor lengths, in-range links, write cursor inside the
buffer) and with fuel covering the input — it succeeds and the accepted
byte count equals the input length. -/
theorem C6_push_contract (descs : List DmaDescriptor) (s : TxCircularState)
    (buf data : List Nat) (fuel wfuel : Nat)
    (hring : ringOkB descs = true)
    (hfirst : s.first_desc_ptr < descs.length)
    (hptr : s.write_descr_ptr < descs.length)
    (hwo : s.write_offset < s.buffer_len) :
    (s.available < data.length →
      TxCircularState.push descs fuel wfuel s buf data =
        some (.error .Overflow, s, buf)) ∧
    (data.length ≤ s.available → data.length < fuel → data.length < wfuel →
      ∃ s1 buf1, TxCircularState.push descs fuel wfuel s buf data =
        some (.ok data.length, s1, buf1)) := by
  constructor
  · intro hov
    unfold TxCircularState.push
    rw [if_pos hov]
  · intro hle hf hwf
    obtain ⟨s1, buf1, hloop⟩ := pushLoop_ok descs data wfuel hring hwf fuel
      data.length 0 s buf hfirst hptr hwo (by omega) hle hf
    unfold TxCircularState.push
    rw [if_neg (by omega), hloop]
    exact ⟨s1, buf1, rfl⟩

/-- C6 witness: the claim's overflow scenario — pushing 5 bytes with only 4
available fails with `Overflow` and leaves the state and buffer unchanged
(the returned state and buffer are the originals). -/
theorem C6_witness :
    TxCircularState.push
        [{ flags := { size := 4, length := 4, suc_eof := true, owner := true },
           buffer := 0, next := some 1 },
         { flags := { size := 4, length := 4, suc_eof := true, owner := true },
           buffer := 4, next := some 0 }] 10 10
        { write_offset := 0, write_descr_ptr := 0, available := 4,
          last_seen_handled_descriptor_ptr := 0, buffer_start := 0,
          buffer_len := 8, first_desc_ptr := 0 }
        [0, 0, 0, 0, 0, 0, 0, 0] [1, 2, 3, 4, 5] =
      some (.error .Overflow,
        { write_offset := 0, write_descr_ptr := 0, available := 4,
          last_seen_handled_descriptor_ptr := 0, buffer_start := 0,
          buffer_len := 8, first_desc_ptr := 0 },
        [0, 0, 0, 0, 0, 0, 0, 0]) := by
  exact (C6_push_contract
    [{ flags := { size := 4, length := 4, suc_eof := true, owner := true },
       buffer := 0, next := some 1 },
     { flags := { size := 4, length := 4, suc_eof := true, owner := true },
       buffer := 4, next := some 0 }]
    { write_offset := 0, write_descr_ptr := 0, available := 4,
      last_seen_handled_descriptor_ptr := 0, buffer_start := 0,
      buffer_len := 8, first_desc_ptr := 0 }
    [0, 0, 0, 0, 0, 0, 0, 0] [1, 2, 3, 4, 5] 10 10
    (by decide) (by decide) (by decide) (by decide)).1 (by decide)

/-! ## Claim C7 -/

/-- Prefix sums never exceed the full sum. -/
theorem sum_take_le (l : List Nat) : ∀ (n : Nat), (l.take n).sum ≤ l.sum := by
  induction l with
  | nil => intro n; simp
  | cons a l ih =>
    intro n
    cases n with
    | zero => simp
    | succ n =>
      simp only [List.take, List.sum_cons]
      have := ih n
      omega

/-- The drain count never exceeds the chain length. -/
theorem drainCount_le_length : ∀ (cs : List Nat) (avail rem : Nat),
    drainCount cs avail rem ≤ cs.length := by
  intro cs
  induction cs with
  | nil => intro avail rem; simp [drainCount]
  | cons c cs ih =>
    intro avail rem
    rw [drainCount]
    split
    · have := ih (avail - c) (rem - c)
      simp only [List.length_cons]
      omega
    · simp

/-- The bytes drained fit in the remaining output space. -/
theorem drain_sum_le : ∀ (cs : List Nat) (avail rem : Nat),
    (cs.take (drainCount cs avail rem)).sum ≤ rem := by
  intro cs
  induction cs with
  | nil => intro avail rem; simp [drainCount]
  | cons c cs ih =>
    intro avail rem
    rw [drainCount]
    split
    · rename_i hcond
      rw [Nat.add_comm 1 (drainCount cs (avail - c) (rem - c)), List.take_succ_cons,
        List.sum_cons]
      have := ih (avail - c) (rem - c)
      omega
    · simp

/-- `resetAt` keeps the array length. -/
theorem resetAt_length : ∀ (is : List Nat) (descs : List DmaDescriptor),
    (resetAt descs is).length = descs.length := by
  intro is
  induction is with
  | nil => intro descs; rfl
  | cons q is ih =>
    intro descs
    show (resetAt (match descs.get? q with
      | none => descs
      | some d => descs.set q (resetDescFlags d)) is).length = descs.length
    rw [ih]
    cases hd : descs.get? q with
    | none => rfl
    | some d => exact List.length_set descs q (resetDescFlags d)

/-- Indices outside the reset set are untouched. -/
theorem resetAt_get_notMem : ∀ (is : List Nat) (descs : List DmaDescriptor) (q : Nat),
    q ∉ is → (resetAt descs is).get? q = descs.get? q := by
  intro is
  induction is with
  | nil => intro descs q _; rfl
  | cons q0 is ih =>
    intro descs q hq
    have hq0 : q ≠ q0 := fun h => hq (by simp [h])
    have hqis : q ∉ is := fun h => hq (by simp [h])
    show (resetAt (match descs.get? q0 with
      | none => descs
      | some d => descs.set q0 (resetDescFlags d)) is).get? q = descs.get? q
    rw [ih _ _ hqis]
    cases hd : descs.get? q0 with
    | none => rfl
    | some d => exact List.get?_set_ne _ _ (fun h => hq0 h.symm)

/-- Every index in the (duplicate-free) reset set carries the reset value of
its original descriptor. -/
theorem resetAt_get_mem : ∀ (is : List Nat) (descs : List DmaDescriptor) (q : Nat),
    is.Nodup → q ∈ is →
    (resetAt descs is).get? q = (descs.get? q).map resetDescFlags := by
  intro is
  induction is with
  | nil => intro descs q _ hq; simp at hq
  | cons q0 is ih =>
    intro descs q hnd hq
    show (resetAt (match descs.get? q0 with
      | none => descs
      | some d => descs.set q0 (resetDescFlags d)) is).get? q =
        (descs.get? q).map resetDescFlags
    rcases List.mem_cons.mp hq with hq0 | hqis
    · subst hq0
      have hnotin : q ∉ is := (List.nodup_cons.mp hnd).1
      rw [resetAt_get_notMem is _ q hnotin]
      cases hd : descs.get? q with
      | none => simp [hd, List.get?_eq_none.mp hd]
      | some d =>
        simp only [Option.map_some']
        rw [List.get?_set_eq, hd]
        rfl
    · have hq0 : q ≠ q0 := by
        intro h
        subst h
        exact (List.nodup_cons.mp hnd).1 hqis
      rw [ih _ q (List.nodup_cons.mp hnd).2 hqis]
      cases hd : descs.get? q0 with
      | none => rfl
      | some d => rw [List.get?_set_ne _ _ (fun h => hq0 h.symm)]

/-- `lenAt` ignores writes at other indices. -/
theorem lenAt_set_ne (descs : List DmaDescriptor) (p : Nat) (d : DmaDescriptor)
    (q : Nat) (h : q ≠ p) : lenAt (descs.set p d) q = lenAt descs q := by
  unfold lenAt
  rw [List.get?_set_ne _ _ (fun hh => h hh.symm)]

/-- `descBytes` ignores writes at other indices. -/
theorem descBytes_set_ne (mem : Nat → Nat) (descs : List DmaDescriptor) (p : Nat)
    (d : DmaDescriptor) (q : Nat) (h : q ≠ p) :
    descBytes mem (descs.set p d) q = descBytes mem descs q := by
  unfold descBytes
  rw [List.get?_set_ne _ _ (fun hh => h hh.symm)]

/-- The nonempty-list `getLastD` does not depend on the default. -/
theorem getLastD_irrel {α : Type} (l : List α) (hne : l ≠ []) (x y : α) :
    l.getLastD x = l.getLastD y := by
  rw [List.getLastD_eq_getLast?, List.getLastD_eq_getLast?]
  obtain ⟨a, ha⟩ := List.getLast?_isSome.mpr hne |> Option.isSome_iff_exists.mp
  rw [ha]
  rfl

/-- One step of `resetAt` along a cons index list. -/
theorem resetAt_cons (descs : List DmaDescriptor) (q : Nat) (l : List Nat)
    (d : DmaDescriptor) (hd : descs.get? q = some d) :
    resetAt descs (q :: l) = resetAt (descs.set q (resetDescFlags d)) l := by
  unfold resetAt
  rw [List.foldl_cons, hd]

/-- Master lemma for the `pop` drain loop: on a consistent chain (`avail`
equal to the sum of the chain's `length` fields, links and indices sane) the
loop drains exactly the `drainCount` prefix, copying each drained
descriptor's buffer whole and resetting it in place, and leaves everything
else untouched. -/
theorem popLoop_spec (mem : Nat → Nat) :
    ∀ (is : List Nat) (fuel : Nat) (descs : List DmaDescriptor)
      (acc remaining : List Nat) (q0 : Nat) (d0 : DmaDescriptor),
      is.head? = some q0 →
      descs.get? q0 = some d0 →
      (∀ q ∈ is, q < descs.length) →
      is.Nodup →
      (∀ p ∈ is.zip is.tail, (descs.get? p.1).bind DmaDescriptor.next = some p.2) →
      endNextOkB descs (is.getLastD 0) = true →
      is.length < fuel →
      ∃ ptr1,
        popLoop mem fuel ((is.map (lenAt descs)).sum) acc remaining descs q0 d0 =
          some ((is.map (lenAt descs)).sum - drainedBytesLen descs is remaining.length,
            acc ++ ((is.take (drainN descs is remaining.length)).map
              (descBytes mem descs)).join,
            remaining.drop (drainedBytesLen descs is remaining.length),
            resetAt descs (is.take (drainN descs is remaining.length)),
            ptr1) := by
  intro is
  induction is with
  | nil => intro fuel descs acc remaining q0 d0 hhead; simp at hhead
  | cons q0 rest ih =>
    intro fuel descs acc remaining p0 d0 hhead hd0 hq hnd hlinks hend hfuel
    have hp0 : q0 = p0 := by
      simp only [List.head?_cons, Option.some.injEq] at hhead
      exact hhead
    subst hp0
    obtain ⟨f1, rfl⟩ : ∃ f1, fuel = f1 + 1 := ⟨fuel - 1, by omega⟩
    have hc0 : lenAt descs q0 = DmaDescriptor.len d0 := by
      unfold lenAt
      rw [hd0]
    have hsum : ((q0 :: rest).map (lenAt descs)).sum =
        DmaDescriptor.len d0 + ((rest.map (lenAt descs))).sum := by
      rw [List.map_cons, List.sum_cons, hc0]
    by_cases hcond : 0 < ((q0 :: rest).map (lenAt descs)).sum ∧ remaining ≠ [] ∧
        DmaDescriptor.len d0 ≤ remaining.length
    · -- the head descriptor is drained
      have hdn : drainN descs (q0 :: rest) remaining.length =
          1 + drainCount (rest.map (lenAt descs)) ((rest.map (lenAt descs)).sum)
            (remaining.length - DmaDescriptor.len d0) := by
        unfold drainN
        rw [List.map_cons, drainCount]
        rw [if_pos ?hc]
        case hc =>
          refine ⟨?_, ?_, ?_⟩
          · rw [← List.map_cons]
            exact hcond.1
          · exact List.length_pos.mpr hcond.2.1
          · rw [hc0]; exact hcond.2.2
        rw [List.sum_cons, hc0]
        have hss : DmaDescriptor.len d0 + (List.map (lenAt descs) rest).sum -
            DmaDescriptor.len d0 = (List.map (lenAt descs) rest).sum := by omega
        rw [hss]
      have hdb : drainedBytesLen descs (q0 :: rest) remaining.length =
          DmaDescriptor.len d0 +
            ((rest.map (lenAt descs)).take
              (drainCount (rest.map (lenAt descs)) ((rest.map (lenAt descs)).sum)
                (remaining.length - DmaDescriptor.len d0))).sum := by
        unfold drainedBytesLen
        rw [hdn, Nat.add_comm 1 _, List.map_cons, List.take_succ_cons, List.sum_cons, hc0]
      rcases hrest : rest with _ | ⟨r1, rest1⟩
      · -- single-element chain: the walk ends here
        subst hrest
        have hdn1 : drainN descs [q0] remaining.length = 1 := by
          rw [hdn]
          simp [drainCount]
        have hdb1 : drainedBytesLen descs [q0] remaining.length =
            DmaDescriptor.len d0 := by
          rw [hdb]
          simp
        have hendq : endNextOkB descs q0 = true := by simpa using hend
        unfold endNextOkB at hendq
        rw [hd0] at hendq
        have hendq2 : (match d0.next with
          | none => true
          | some q => decide (q < descs.length)) = true := hendq
        have hd0g : descs[q0]? = some d0 := by
          rw [← List.get?_eq_getElem?]
          exact hd0
        rcases hn : d0.next with _ | p1
        · refine ⟨none, ?_⟩
          rw [popLoop, if_pos ⟨hcond.1, hcond.2.1, hcond.2.2⟩, hn]
          rw [hdn1, hdb1]
          simp only [List.map_cons, List.map_nil, List.sum_cons, List.sum_nil,
            List.take_succ_cons, List.take_nil, List.join, hc0]
          rw [resetAt]
          simp [resetAt, hd0, hd0g, descBytes]
        · rw [hn] at hendq2
          have hp1lt : p1 < descs.length := by simpa using hendq2
          have hp1lt1 : p1 < (descs.set q0 (resetDescFlags d0)).length := by
            simpa using hp1lt
          have hd1 : (descs.set q0 (resetDescFlags d0)).get? p1 =
              some ((descs.set q0 (resetDescFlags d0)).get ⟨p1, hp1lt1⟩) :=
            List.get?_eq_get hp1lt1
          obtain ⟨f2, rfl⟩ : ∃ f2, f1 = f2 + 1 :=
            ⟨f1 - 1, by simp only [List.length_cons, List.length_nil] at hfuel; omega⟩
          refine ⟨some p1, ?_⟩
          rw [popLoop, if_pos ⟨hcond.1, hcond.2.1, hcond.2.2⟩]
          simp only [hn, hd1]
          rw [popLoop]
          have hstop : ¬(0 < ((List.map (lenAt descs) [q0]).sum - DmaDescriptor.len d0) ∧
              remaining.drop (DmaDescriptor.len d0) ≠ [] ∧
              DmaDescriptor.len ((descs.set q0 (resetDescFlags d0)).get ⟨p1, hp1lt1⟩) ≤
                (remaining.drop (DmaDescriptor.len d0)).length) := by
            intro hcc
            have := hcc.1
            rw [List.map_cons, List.map_nil, List.sum_cons, List.sum_nil, hc0] at this
            omega
          rw [if_neg hstop]
          rw [hdn1, hdb1]
          simp only [List.map_cons, List.map_nil, List.sum_cons, List.sum_nil,
            List.take_succ_cons, List.take_nil, List.join, hc0]
          rw [resetAt]
          simp [resetAt, hd0, hd0g, descBytes]
      · -- the chain continues at r1
        subst hrest
        have hlink0 : d0.next = some r1 := by
          have := hlinks (q0, r1) (by simp)
          rw [hd0] at this
          simpa using this
        have hq0r : q0 ∉ (r1 :: rest1) := (List.nodup_cons.mp hnd).1
        have hr1ne : r1 ≠ q0 := fun h => hq0r (by simp [h])
        have hr1lt : r1 < descs.length := hq r1 (by simp)
        have hr1lt1 : r1 < (descs.set q0 (resetDescFlags d0)).length := by simpa using hr1lt
        have hd1get : (descs.set q0 (resetDescFlags d0)).get? r1 = descs.get? r1 :=
          List.get?_set_ne _ _ (fun h => hr1ne h.symm)
        have hd1some : descs.get? r1 = some (descs.get ⟨r1, hr1lt⟩) := List.get?_eq_get hr1lt
        have hmapeq : (r1 :: rest1).map (lenAt (descs.set q0 (resetDescFlags d0))) =
            (r1 :: rest1).map (lenAt descs) :=
          List.map_congr_left (fun q hq2 =>
            lenAt_set_ne descs q0 (resetDescFlags d0) q
              (fun he => hq0r (by rw [← he]; exact hq2)))
        have ihres := ih (f1) (descs.set q0 (resetDescFlags d0))
          (acc ++ (List.range (DmaDescriptor.len d0)).map (fun j => mem (d0.buffer + j)))
          (remaining.drop (DmaDescriptor.len d0)) r1 (descs.get ⟨r1, hr1lt⟩)
          (by simp)
          (by rw [hd1get]; exact hd1some)
          (by intro q hq2; rw [List.length_set]; exact hq q (by simp [hq2]))
          ((List.nodup_cons.mp hnd).2)
          (by
            intro p hp
            have hp1 : p ∈ ((q0 :: r1 :: rest1).zip (r1 :: rest1)) := by
              simp only [List.zip_cons_cons] at *
              exact List.mem_cons_of_mem _ hp
            have := hlinks p hp1
            have hpmem : p.1 ∈ (r1 :: rest1) := by
              have := List.mem_zip hp
              exact this.1
            rw [List.get?_set_ne _ _ (fun h => hq0r (by rw [← h] at hpmem; exact hpmem))]
            exact this)
          (by
            have hlst : (r1 :: rest1).getLastD 0 ∈ (r1 :: rest1) := by
              rw [List.getLastD_eq_getLast?]
              have : (r1 :: rest1).getLast? = some ((r1 :: rest1).getLast (by simp)) :=
                List.getLast?_eq_getLast _ (by simp)
              rw [this]
              exact List.getLast_mem _
            have hlstne : (r1 :: rest1).getLastD 0 ≠ q0 :=
              fun h => hq0r (by rw [h] at hlst; exact hlst)
            have hend2 : endNextOkB descs ((r1 :: rest1).getLastD 0) = true := by
              have := hend
              rw [List.getLastD_cons, getLastD_irrel (r1 :: rest1) (by simp) q0 0] at this
              exact this
            unfold endNextOkB at hend2 ⊢
            rw [List.get?_set_ne _ _ (fun h => hlstne h.symm), List.length_set]
            exact hend2)
          (by simp at hfuel ⊢; omega)
        obtain ⟨ptr1, hres⟩ := ihres
        refine ⟨ptr1, ?_⟩
        rw [popLoop, if_pos ⟨hcond.1, hcond.2.1, hcond.2.2⟩]
        simp only [hlink0, hd1get.trans hd1some]
        have havr : ((q0 :: r1 :: rest1).map (lenAt descs)).sum - DmaDescriptor.len d0 =
            (((r1 :: rest1)).map (lenAt (descs.set q0 (resetDescFlags d0)))).sum := by
          rw [hmapeq, hsum]
          omega
        rw [havr, hres]
        -- now identify the two result tuples
        rw [hmapeq]
        have hdneq : drainN (descs.set q0 (resetDescFlags d0)) (r1 :: rest1)
            (remaining.drop (DmaDescriptor.len d0)).length =
            drainCount ((r1 :: rest1).map (lenAt descs))
              (((r1 :: rest1).map (lenAt descs)).sum)
              (remaining.length - DmaDescriptor.len d0) := by
          unfold drainN
          rw [hmapeq, List.length_drop]
        have hdbeq : drainedBytesLen (descs.set q0 (resetDescFlags d0)) (r1 :: rest1)
            (remaining.drop (DmaDescriptor.len d0)).length =
            ((List.map (lenAt descs) (r1 :: rest1)).take
              (drainCount ((r1 :: rest1).map (lenAt descs))
                (((r1 :: rest1).map (lenAt descs)).sum)
                (remaining.length - DmaDescriptor.len d0))).sum := by
          unfold drainedBytesLen
          rw [hdneq, hmapeq]
        rw [hdneq, hdbeq]
        have htake : (q0 :: r1 :: rest1).take
            (drainN descs (q0 :: r1 :: rest1) remaining.length) =
            q0 :: (r1 :: rest1).take
              (drainCount ((r1 :: rest1).map (lenAt descs))
                (((r1 :: rest1).map (lenAt descs)).sum)
                (remaining.length - DmaDescriptor.len d0)) := by
          rw [hdn, Nat.add_comm 1 _, List.take_succ_cons]
        have hsub : ((r1 :: rest1).take
            (drainCount ((r1 :: rest1).map (lenAt descs))
              (((r1 :: rest1).map (lenAt descs)).sum)
              (remaining.length - DmaDescriptor.len d0))) ⊆ (r1 :: rest1) :=
          List.take_subset _ _
        have hbyteseq : ((r1 :: rest1).take
            (drainCount ((r1 :: rest1).map (lenAt descs))
              (((r1 :: rest1).map (lenAt descs)).sum)
              (remaining.length - DmaDescriptor.len d0))).map
              (descBytes mem (descs.set q0 (resetDescFlags d0))) =
            ((r1 :: rest1).take
              (drainCount ((r1 :: rest1).map (lenAt descs))
                (((r1 :: rest1).map (lenAt descs)).sum)
                (remaining.length - DmaDescriptor.len d0))).map (descBytes mem descs) :=
          List.map_congr_left (fun q hq2 =>
            descBytes_set_ne mem descs q0 (resetDescFlags d0) q
              (fun he => hq0r (by rw [← he]; exact hsub hq2)))
        have hdb0 : descBytes mem descs q0 =
            List.map (fun j => mem (d0.buffer + j)) (List.range (DmaDescriptor.len d0)) := by
          unfold descBytes
          rw [hd0]
        rw [htake, hdb, hsum, hbyteseq, resetAt_cons descs q0 _ d0 hd0]
        simp only [List.map_cons, List.join, hdb0]
        rw [List.drop_drop, List.append_assoc]
        congr 1
        refine Prod.ext ?_ (Prod.ext ?_ (Prod.ext ?_ (Prod.ext ?_ rfl)))
        · omega
        · rfl
        · first
          | rfl
          | (congr 1; omega)
        · rfl
    · -- nothing is drained
      have hdn0 : drainN descs (q0 :: rest) remaining.length = 0 := by
        unfold drainN
        rw [List.map_cons, drainCount, if_neg]
        intro hcc
        apply hcond
        refine ⟨?_, ?_, ?_⟩
        · rw [List.map_cons]
          exact hcc.1
        · intro hre
          rw [hre] at hcc
          simp at hcc
        · rw [← hc0]
          exact hcc.2.2
      refine ⟨some q0, ?_⟩
      rw [popLoop, if_neg ?hc2]
      case hc2 =>
        intro hcc
        exact hcond ⟨hcc.1, hcc.2.1, hcc.2.2⟩
      unfold drainedBytesLen
      rw [hdn0]
      simp [resetAt]

/-- C7: `RxCircularState::pop` returns `BufferTooSmall` exactly when
`available` exceeds the output length; otherwise, over a consistent chain
(read pointer at the chain head, `available` the sum of the chain's `length`
fields, distinct in-range indices, `next` links following the chain), it
drains only whole descriptors: every drained descriptor is copied in full
and reset to `owner = DMA`, `suc_eof = false`, `length = 0`, every other
descriptor is left untouched, and the returned `Ok` value is the number of
bytes actually copied into the output. -/
theorem C7_pop_contract (mem : Nat → Nat) (descs : List DmaDescriptor)
    (s : RxCircularState) (out is : List Nat) (p0 fuel : Nat) (d0 : DmaDescriptor)
    (hread : s.read_descr_ptr = some p0)
    (hhead : is.head? = some p0)
    (hd0 : descs.get? p0 = some d0)
    (havail : s.available = (is.map (lenAt descs)).sum)
    (hbound : ∀ q ∈ is, q < descs.length)
    (hnd : is.Nodup)
    (hlinks : ∀ p ∈ is.zip is.tail, (descs.get? p.1).bind DmaDescriptor.next = some p.2)
    (hend : endNextOkB descs (is.getLastD 0) = true)
    (hfuel : is.length < fuel) :
    (out.length < s.available →
      RxCircularState.pop mem descs fuel s out =
        some (.error .BufferTooSmall, s, descs, out)) ∧
    (s.available ≤ out.length →
      (∃ ptr1,
        RxCircularState.pop mem descs fuel s out =
          some (.ok (drainedBytesLen descs is out.length),
            { s with
                read_descr_ptr := ptr1
                available := (is.map (lenAt descs)).sum -
                  drainedBytesLen descs is out.length },
            resetAt descs (is.take (drainN descs is out.length)),
            ((is.take (drainN descs is out.length)).map (descBytes mem descs)).join ++
              out.drop (drainedBytesLen descs is out.length))) ∧
      (∀ q ∈ is.take (drainN descs is out.length),
        (resetAt descs (is.take (drainN descs is out.length))).get? q =
          (descs.get? q).map resetDescFlags) ∧
      (∀ q, q ∉ is.take (drainN descs is out.length) →
        (resetAt descs (is.take (drainN descs is out.length))).get? q =
          descs.get? q)) := by
  constructor
  · intro hlt
    simp only [RxCircularState.pop]
    rw [if_pos hlt]
  · intro hle
    obtain ⟨ptr1, hloop⟩ :=
      popLoop_spec mem is fuel descs [] out p0 d0 hhead hd0 hbound hnd hlinks hend hfuel
    have hdble : drainedBytesLen descs is out.length ≤ out.length := by
      unfold drainedBytesLen drainN
      exact drain_sum_le _ _ _
    refine ⟨⟨ptr1, ?_⟩, ?_, ?_⟩
    · simp only [RxCircularState.pop, hread, hd0]
      rw [if_neg (by omega), havail, hloop]
      simp only [List.nil_append, List.length_drop]
      have hlen2 : out.length - (out.length - drainedBytesLen descs is out.length) =
          drainedBytesLen descs is out.length := by omega
      rw [hlen2]
    · intro q hq
      exact resetAt_get_mem _ descs q
        ((List.take_sublist (drainN descs is out.length) is).nodup hnd) hq
    · intro q hq
      exact resetAt_get_notMem _ descs q hq

/-- C7 witness: on a three-descriptor ring holding 8 available bytes across
the chain [0, 1], popping into a 5-byte output refuses with `BufferTooSmall`
and leaves the state, descriptors and output untouched. -/
theorem C7_witness :
    RxCircularState.pop (fun a => a)
        [{ flags := { size := 4, length := 4, suc_eof := false, owner := true },
           buffer := 0, next := some 1 },
         { flags := { size := 4, length := 4, suc_eof := false, owner := true },
           buffer := 10, next := some 2 },
         { flags := { size := 4, length := 4, suc_eof := false, owner := true },
           buffer := 20, next := some 0 }] 3
        { read_descr_ptr := some 0, available := 8,
          last_seen_handled_descriptor_ptr := none, last_descr_ptr := 2 }
        [1, 2, 3, 4, 5] =
      some (.error .BufferTooSmall,
        { read_descr_ptr := some 0, available := 8,
          last_seen_handled_descriptor_ptr := none, last_descr_ptr := 2 },
        [{ flags := { size := 4, length := 4, suc_eof := false, owner := true },
           buffer := 0, next := some 1 },
         { flags := { size := 4, length := 4, suc_eof := false, owner := true },
           buffer := 10, next := some 2 },
         { flags := { size := 4, length := 4, suc_eof := false, owner := true },
           buffer := 20, next := some 0 }],
        [1, 2, 3, 4, 5]) := by
  exact (C7_pop_contract (fun a => a)
    [{ flags := { size := 4, length := 4, suc_eof := false, owner := true },
       buffer := 0, next := some 1 },
     { flags := { size := 4, length := 4, suc_eof := false, owner := true },
       buffer := 10, next := some 2 },
     { flags := { size := 4, length := 4, suc_eof := false, owner := true },
       buffer := 20, next := some 0 }]
    { read_descr_ptr := some 0, available := 8,
      last_seen_handled_descriptor_ptr := none, last_descr_ptr := 2 }
    [1, 2, 3, 4, 5] [0, 1] 0 3
    { flags := { size := 4, length := 4, suc_eof := false, owner := true },
      buffer := 0, next := some 1 }
    (by decide) (by decide) (by decide) (by decide) (by decide) (by decide)
    (by decide) (by decide) (by decide)).1 (by decide)

end EspHalDma
